import Mathlib

/-!
# dkb-report: projection, amount extraction, column parsing, line skipping, read loop

A shallow embedding of `dkb-report.go`.  Go strings are modelled as Lean strings
(sequences of Unicode code points); every character the program inspects
(`,`, `\n`, `-`, `.`, digits, the no-break space and `€`) is a whole code point, so the
byte-level and the code-point-level views agree on what is matched.
Go `int` is the 64-bit two's-complement integer.
-/

namespace DkbReport

/-! ## The regular expression `(-?\d{1,3}(?:\.\d{3})*(?:,\d{1,2})?)(?:\u00A0€)`

The character before the euro sign in the pattern literal of the source
(line 138) is the no-break space U+00A0 (bytes `c2 a0`), not the ordinary
space U+0020.  It is written `\u00A0` throughout.

Go's `regexp` package returns the leftmost match and, among the matches that
start there, the one a backtracking engine finds first.  A matcher maps the
remaining input to the list of all ways it can match a piece at the front of
that input, as pairs (matched text, rest), in the order a backtracking engine
tries them. -/

/-- All ways to match at the front of the input, best first. -/
abbrev Matcher := List Char → List (List Char × List Char)

/-- A literal character. -/
def lit (c : Char) : Matcher
  | [] => []
  | x :: t => if x = c then [([x], t)] else []

/-- The class `\d`: in Go it is the ASCII digits `0` to `9` only. -/
def digit : Matcher
  | [] => []
  | x :: t => if x.isDigit then [([x], t)] else []

/-- The empty expression. -/
def eps : Matcher := fun s => [([], s)]

/-- Concatenation `ab`: every way of `a`, each continued by every way of `b`. -/
def seq (a b : Matcher) : Matcher := fun s =>
  (a s).flatMap fun p => (b p.2).map fun q => (p.1 ++ q.1, q.2)

/-- Greedy option `a?`: first try `a`, then the empty match. -/
def opt (a : Matcher) : Matcher := fun s => a s ++ [([], s)]

/-- Greedy star with an iteration budget: first one more `a`, then stop. -/
def starFuel (a : Matcher) : Nat → Matcher
  | 0, s => [([], s)]
  | n + 1, s =>
    ((a s).flatMap fun p => (starFuel a n p.2).map fun q => (p.1 ++ q.1, q.2)) ++ [([], s)]

/-- Greedy star `a*`.  The budget is the input length: an iteration that
consumes at least one character cannot happen more often than that. -/
def star (a : Matcher) : Matcher := fun s => starFuel a s.length s

/-- Exactly `n` copies, `a{n}`. -/
def times (a : Matcher) : Nat → Matcher
  | 0 => eps
  | n + 1 => seq a (times a n)

/-- Greedy `a{0,k}`, which is `(?:a(?:a ... )?)?`. -/
def upTo (a : Matcher) : Nat → Matcher
  | 0 => eps
  | k + 1 => opt (seq a (upTo a k))

/-- Greedy counted repetition `a{lo,hi}`. -/
def rep (a : Matcher) (lo hi : Nat) : Matcher := seq (times a lo) (upTo a (hi - lo))

/-- Capture group 1: `-?\d{1,3}(?:\.\d{3})*(?:,\d{1,2})?`. -/
def amountGroup : Matcher :=
  seq (opt (lit '-'))
    (seq (rep digit 1 3)
      (seq (star (seq (lit '.') (times digit 3)))
        (opt (seq (lit ',') (rep digit 1 2)))))

/-- The non-capturing group of the pattern: the no-break space U+00A0 and the
euro sign. -/
def currencySuffix : Matcher := seq (lit '\u00A0') (lit '€')

/-- The whole `ammountPattern` anchored at the front of the input: the list of
(whole match, text of group 1), best first. -/
def ammountPattern (s : List Char) : List (List Char × List Char) :=
  (amountGroup s).flatMap fun p => (currencySuffix p.2).map fun q => (p.1 ++ q.1, p.1)

/-- Search for the leftmost match: try the pattern at the current position and
move one character to the right when it does not match there. -/
def findFrom : List Char → List String
  | [] =>
    match ammountPattern [] with
    | m :: _ => [String.mk m.1, String.mk m.2]
    | [] => []
  | c :: t =>
    match ammountPattern (c :: t) with
    | m :: _ => [String.mk m.1, String.mk m.2]
    | [] => findFrom t

/-- The call `regex.FindStringSubmatch(value)`: nil (the empty list) when there is no
match, otherwise the whole match followed by the text of group 1. -/
def FindStringSubmatch (value : String) : List String := findFrom value.data

/-! ## keepColumns -/

/-- The function `contains` (lines 159-167): linear scan of the slice. -/
def contains : List Int → Int → Bool
  | [], _ => false
  | item :: rest, value => if item = value then true else contains rest value

/-- Lines 137-152 of `keepColumns`, the amount extractor: the value appended to
`newRecord` for a retained field. -/
def extractAmount (value : String) : String :=
  let submatches := FindStringSubmatch value
  if submatches.length > 1 then submatches.getD 1 "" else value

/-- The `for i, value := range record` loop of `keepColumns`, from index `i`
with the record built so far. -/
def keepColumnsLoop (columnsToKeep : List Int) : Nat → List String → List String → List String
  | _, [], newRecord => newRecord
  | i, value :: rest, newRecord =>
    if contains columnsToKeep (i : Int) then
      keepColumnsLoop columnsToKeep (i + 1) rest (newRecord ++ [extractAmount value])
    else
      keepColumnsLoop columnsToKeep (i + 1) rest newRecord

/-- The function `keepColumns` (lines 130-157). -/
def keepColumns (record : List String) (columnsToKeep : List Int) : List String :=
  keepColumnsLoop columnsToKeep 0 record []

/-! ## parseColumnsToKeep -/

/-- The error kinds of `strconv.NumError`. -/
inductive NumError where
  | ErrSyntax
  | ErrRange
  deriving DecidableEq

/-- The largest `uint64`. -/
def maxUint64 : Nat := 2 ^ 64 - 1

/-- The digit loop of `strconv.ParseUint(s, 10, 64)`: a character that is not
a decimal digit is a syntax error, a value that leaves `uint64` a range error. -/
def parseUintLoop : List Char → Nat → Except NumError Nat
  | [], n => .ok n
  | c :: t, n =>
    if c.isDigit then
      if n ≥ maxUint64 / 10 + 1 then .error .ErrRange
      else
        let n1 := n * 10 + (c.toNat - '0'.toNat)
        if n1 > maxUint64 then .error .ErrRange else parseUintLoop t n1
    else .error .ErrSyntax

/-- The call `strconv.ParseUint(s, 10, 64)`: the empty string is a syntax error. -/
def ParseUint (s : List Char) : Except NumError Nat :=
  match s with
  | [] => .error .ErrSyntax
  | _ :: _ => parseUintLoop s 0

/-- The function `strconv.Atoi` for the 64-bit `int`: an optional sign `+` or `-`, then the
unsigned value, which must fit the signed range. -/
def Atoi (s : String) : Except NumError Int :=
  match s.data with
  | [] => .error .ErrSyntax
  | c :: t =>
    let neg := c == '-'
    let body := if c == '+' || c == '-' then t else c :: t
    match ParseUint body with
    | .error e => .error e
    | .ok un =>
      if !neg && un ≥ 2 ^ 63 then .error .ErrRange
      else if neg && un > 2 ^ 63 then .error .ErrRange
      else .ok (if neg then -(un : Int) else (un : Int))

/-- Arithmetic on `int` wraps around in 64-bit two's complement. -/
def wrapInt64 (x : Int) : Int := (x + 2 ^ 63) % 2 ^ 64 - 2 ^ 63

/-- The pieces of `strings.Split(s, sep)` for a one-character separator: one
more piece than there are separators, possibly empty ones. -/
def splitChars (sep : Char) : List Char → List (List Char)
  | [] => [[]]
  | c :: t =>
    if c = sep then [] :: splitChars sep t
    else
      match splitChars sep t with
      | [] => [[c]]
      | piece :: pieces => (c :: piece) :: pieces

/-- The call `strings.Split(input, ",")`. -/
def Split (s : String) (sep : Char) : List String := (splitChars sep s.data).map String.mk

/-- The loop of `parseColumnsToKeep` over the remaining tokens, with the
columns collected so far.  The result is the pair the Go function returns: the
slice (`none` is the nil slice) and the error (`none` is nil). -/
def parseColumnsLoop : List String → List Int → Option (List Int) × Option NumError
  | [], columns => (some columns, none)
  | indexStr :: rest, columns =>
    match Atoi indexStr with
    | .error err => (none, some err)
    | .ok index => parseColumnsLoop rest (columns ++ [wrapInt64 (index - 1)])

/-- The function `parseColumnsToKeep` (lines 113-128). -/
def parseColumnsToKeep (input : String) : Option (List Int) × Option NumError :=
  parseColumnsLoop (Split input ',') []

/-! ## skipRecords -/

/-- What a read reports when no more data can be delivered: `io.EOF` or some
other read error. -/
inductive ReadError where
  | EOF
  | other (msg : String)
  deriving DecidableEq

/-- A buffered reader over a source: the text not yet read, and what the source
reports once that text is used up. -/
structure Reader where
  unread : List Char
  atEnd : ReadError
  deriving DecidableEq

/-- Cut the text after its first newline, if there is one. -/
def splitLine : List Char → Option (List Char × List Char)
  | [] => none
  | c :: t =>
    if c = '\n' then some ([c], t)
    else
      match splitLine t with
      | some (line, rest) => some (c :: line, rest)
      | none => none

/-- The call `reader.ReadString('\n')`: the data up to and including the first newline;
when the source ends or fails first, the data read so far and the error. -/
def Reader.ReadString (r : Reader) : String × Option ReadError × Reader :=
  match splitLine r.unread with
  | some (line, rest) => (String.mk line, none, { r with unread := rest })
  | none => (String.mk r.unread, some r.atEnd, { r with unread := [] })

/-- The loop of `skipRecords` with the number of iterations still to run. -/
def skipLoop : Nat → Reader → Option ReadError × Reader
  | 0, r => (none, r)
  | k + 1, r =>
    match r.ReadString with
    | (_, err, r') =>
      if err ≠ none ∧ err ≠ some ReadError.EOF then (err, r') else skipLoop k r'

/-- The function `skipRecords` (lines 97-111): `for i := 0; i < recordsToSkip; i++` runs
`recordsToSkip` times, and not at all for a negative count.  The result is the
returned error (`none` is nil) and the reader afterwards. -/
def skipRecords (reader : Reader) (recordsToSkip : Int) : Option ReadError × Reader :=
  skipLoop recordsToSkip.toNat reader

/-! ## The read loop of main -/

/-- One result of `reader.Read()` before end-of-stream: a record or an error
other than `io.EOF`. -/
inductive ReadResult where
  | record (fields : List String)
  | failure (msg : String)
  deriving DecidableEq

/-- The `for` loop of `main` (lines 67-85) over the results `reader.Read()`
delivers before `io.EOF`, with the rows written so far.  Writing to the output
file is taken to succeed. -/
def readLoop (columnIndices : List Int) : List ReadResult → List (List String) → List (List String)
  | [], written => written
  | ReadResult.failure _ :: rest, written => readLoop columnIndices rest written
  | ReadResult.record record :: rest, written =>
    readLoop columnIndices rest (written ++ [keepColumns record columnIndices])

/-- Lines 51-94 of `main`: skip, then read, project and write.  The CSV reader
of the standard library is a parameter: `csvResults r` is the sequence of
results `reader.Read()` delivers from reader state `r` before `io.EOF`.  The
result is the exit status and the rows written. -/
def processInput (csvResults : Reader → List ReadResult) (columnIndices : List Int)
    (recordsToSkip : Int) (input : Reader) : Nat × List (List String) :=
  match skipRecords input recordsToSkip with
  | (some _, _) => (1, [])
  | (none, reader) => (0, readLoop columnIndices (csvResults reader) [])

/-- A plain reader for input without quote characters, standing in for the CSV
reader where a concrete one is needed: one record per non-empty line, fields
separated by `;`. -/
def unquotedCsvResults (r : Reader) : List ReadResult :=
  ((splitChars '\n' r.unread).filter fun line => line ≠ []).map fun line =>
    ReadResult.record ((splitChars ';' line).map String.mk)

/-! ## Notions used to state the properties -/

/-- A matcher is exact for a language when its results are precisely the
splittings of the input into a word of the language and the rest. -/
def Exact (a : Matcher) (L : List Char → Prop) : Prop :=
  ∀ x m r, (m, r) ∈ a x ↔ (L m ∧ x = m ++ r)

/-- Every character is an ASCII digit. -/
def Digits (m : List Char) : Prop := ∀ c ∈ m, c.isDigit = true

/-- A thousands group: `.` plus exactly three digits. -/
def ThousandsGroup (g : List Char) : Prop :=
  ∃ d, g = '.' :: d ∧ d.length = 3 ∧ Digits d

/-- A decimal part: `,` plus one or two digits. -/
def DecimalPart (f : List Char) : Prop :=
  ∃ d, f = ',' :: d ∧ 1 ≤ d.length ∧ d.length ≤ 2 ∧ Digits d

/-- A well-formed amount: an optional `-`, one to three ASCII digits, zero or
more groups of `.` plus exactly three digits, optionally `,` plus one or two
digits. -/
def WellFormedAmount (s : List Char) : Prop :=
  ∃ (sign ds : List Char) (gs : List (List Char)) (frac : List Char),
    s = sign ++ (ds ++ (gs.flatten ++ frac)) ∧
    (sign = ['-'] ∨ sign = []) ∧
    (1 ≤ ds.length ∧ ds.length ≤ 3 ∧ Digits ds) ∧
    (∀ g ∈ gs, ThousandsGroup g) ∧
    (DecimalPart frac ∨ frac = [])

/-- The characters an amount is made of. -/
def amountChar (c : Char) : Bool := c.isDigit || c == '-' || c == '.' || c == ','

/-- The pattern matches at the front of `t` with group 1 equal to `c`: `t`
starts with the well-formed amount `c` followed by the no-break space U+00A0
and `€`. -/
def MatchAt (t c : List Char) : Prop :=
  WellFormedAmount c ∧ ∃ r, t = c ++ '\u00A0' :: '€' :: r

/-- The amount extractor in the words of the specification, with the suffix
the pattern of the source has: `r` is the result for the field `v` when either
no well-formed amount followed by U+00A0 and `€` occurs in `v` and `r` is `v`
itself, or `r` is a well-formed amount that occurs in `v` followed by U+00A0
and `€`, at the leftmost position where such an occurrence starts. -/
def ExtractsTo (v r : List Char) : Prop :=
  (r = v ∧ ¬ ∃ pre c post, v = pre ++ c ++ '\u00A0' :: '€' :: post ∧ WellFormedAmount c) ∨
  (WellFormedAmount r ∧ ∃ pre post, v = pre ++ r ++ '\u00A0' :: '€' :: post ∧
    ∀ pre' c' post', v = pre' ++ c' ++ '\u00A0' :: '€' :: post' → WellFormedAmount c' →
      pre.length ≤ pre'.length)

/-- The projection in the words of the specification: walk the record left to
right with the positions 0, 1, 2, ..., keep the field at position `i` exactly
when `i` occurs in the selection, and apply the amount extractor to each field
kept. -/
def projectInRecordOrder (record : List String) (selection : List Int) : List String :=
  (record.enum.filter fun p => decide ((p.1 : Int) ∈ selection)).map fun p => extractAmount p.2

/-- One step of reading a number in base ten. -/
def decimalStep (n : Nat) (c : Char) : Nat := n * 10 + (c.toNat - '0'.toNat)

/-- The value of a string of decimal digits. -/
def decimalValue (ds : List Char) : Nat := ds.foldl decimalStep 0

/-- The token is a decimal integer of value `n`: an optional sign `+` or `-`
followed by one or more ASCII digits. -/
def DecimalInteger (tok : List Char) (n : Int) : Prop :=
  ∃ ds, ds ≠ [] ∧ Digits ds ∧
    ((tok = ds ∧ n = (decimalValue ds : Int)) ∨
     (tok = '+' :: ds ∧ n = (decimalValue ds : Int)) ∨
     (tok = '-' :: ds ∧ n = -(decimalValue ds : Int)))

/-- The token is a valid integer of value `n` for the 64-bit `int`. -/
def ValidInt (tok : String) (n : Int) : Prop :=
  DecimalInteger tok.data n ∧ -(2 : Int) ^ 63 ≤ n ∧ n < (2 : Int) ^ 63

/-- A newline-terminated line: text without a newline, then the newline. -/
def IsLine (l : List Char) : Prop := ∃ body, '\n' ∉ body ∧ l = body ++ ['\n']

/-- The length `len(s)` of a Go string: the number of bytes of its UTF-8 form. -/
def byteLen (s : List Char) : Nat := (s.map Char.utf8Size).sum

/-! ## The CSV reader

The reader `main` sets up is `csv.NewReader` with `Comma = ';'` and
`LazyQuotes = true`; comments and leading-space trimming are off and
`FieldsPerRecord` starts at 0.  The definitions follow `readLine` and
`readRecord` of `encoding/csv` for a source that ends in end-of-stream. -/

/-- Cut the text at the first occurrence of a character: what stands before
it and what stands after it (`bytes.IndexRune`, `bytes.IndexByte`). -/
def cutAt (sep : Char) : List Char → Option (List Char × List Char)
  | [] => none
  | c :: t =>
    if c = sep then some ([], t)
    else
      match cutAt sep t with
      | some (before, after) => some (c :: before, after)
      | none => none

/-- The line without its trailing newline, if it has one (`lengthNL`). -/
def dropNL (line : List Char) : List Char :=
  if line.getLast? = some '\n' then line.dropLast else line

/-- A line ending in `\r\n` ends in `\n` instead. -/
def normalizeCRLF (line : List Char) : List Char :=
  if line.getLast? = some '\n' ∧ line.dropLast.getLast? = some '\r' then
    line.dropLast.dropLast ++ ['\n']
  else line

/-- A last line without newline loses a trailing `\r`. -/
def dropTrailingCR (line : List Char) : List Char :=
  if line.getLast? = some '\r' then line.dropLast else line

/-- The method `readLine` of `csv.Reader` on a source that ends in end-of-stream:
the next line with its newline, whether end-of-stream is reported (only when
nothing was read), and the input left. -/
def csvReadLine (input : List Char) : List Char × Bool × List Char :=
  match splitLine input with
  | some (line, rest) => (normalizeCRLF line, false, rest)
  | none => if input = [] then ([], true, []) else (dropTrailingCR input, false, [])

/-- The field loop `parseField` of `readRecord` with `LazyQuotes = true` and
no leading-space trimming.  `quoted` tells whether the loop stands inside a
quoted field, whose text so far is `buf`; `line` is the rest of the current
line, `rest` the input after it, `fields` the fields completed.  The result is
the fields of the record and the input left; `none` when the step budget runs
out. -/
def csvFields (comma : Char) :
    Nat → Bool → List Char → List Char → List Char → List (List Char) →
      Option (List (List Char) × List Char)
  | 0, _, _, _, _, _ => none
  | n + 1, false, line, rest, _, fields =>
    if line.head? = some '"' then csvFields comma n true line.tail rest [] fields
    else
      match cutAt comma line with
      | some (field, line') => csvFields comma n false line' rest [] (fields ++ [field])
      | none => some (fields ++ [dropNL line], rest)
  | n + 1, true, line, rest, buf, fields =>
    match cutAt '"' line with
    | some (before, after) =>
      match after with
      | [] => some (fields ++ [buf ++ before], rest)
      | c :: after' =>
        if c = '"' then csvFields comma n true after' rest (buf ++ before ++ ['"']) fields
        else if c = comma then csvFields comma n false after' rest [] (fields ++ [buf ++ before])
        else if after = ['\n'] then some (fields ++ [buf ++ before], rest)
        else csvFields comma n true after rest (buf ++ before ++ ['"']) fields
    | none =>
      match line with
      | [] => some (fields ++ [buf], rest)
      | _ :: _ =>
        match csvReadLine rest with
        | (line', _, rest') => csvFields comma n true line' rest' (buf ++ line) fields

/-- One outcome of `readRecord` before the field count is checked. -/
inductive CsvRecord where
  | outOfFuel
  | eof
  | fields (fs : List (List Char)) (rest : List Char)
  deriving DecidableEq

/-- The first part of `readRecord`: read lines until one is not empty. -/
def csvNextLine : Nat → List Char → Option (Option (List Char × List Char))
  | 0, _ => none
  | n + 1, input =>
    match csvReadLine input with
    | (line, atEOF, rest) =>
      if atEOF then some none
      else if line = [] ∨ line = ['\n'] then csvNextLine n rest
      else some (some (line, rest))

/-- The method `readRecord` of `csv.Reader` with `LazyQuotes = true`, on a source that
ends in end-of-stream. -/
def csvReadRecord (comma : Char) (input : List Char) : CsvRecord :=
  match csvNextLine (input.length + 1) input with
  | none => CsvRecord.outOfFuel
  | some none => CsvRecord.eof
  | some (some (line, rest)) =>
    match csvFields comma (line.length + rest.length + 1) false line rest [] [] with
    | none => CsvRecord.outOfFuel
    | some (fs, rest') => CsvRecord.fields fs rest'

/-- The end of `readRecord`: `fieldsPerRecord` is the reader's `FieldsPerRecord`,
0 before the first record and its field count afterwards; a record with another
count is returned together with `ErrFieldCount`, which `main` treats as a
failed read. -/
def csvResult (fieldsPerRecord : Nat) (fs : List (List Char)) : ReadResult :=
  if fieldsPerRecord > 0 ∧ fs.length ≠ fieldsPerRecord then
    ReadResult.failure "wrong number of fields"
  else ReadResult.record (fs.map String.mk)

/-- All results of `reader.Read()` up to end-of-stream, for the reader's current
`FieldsPerRecord`.  The result is `none` when the step budget runs out. -/
def csvReadAll (comma : Char) : Nat → List Char → Nat → Option (List ReadResult)
  | 0, _, _ => none
  | n + 1, input, fieldsPerRecord =>
    match csvReadRecord comma input with
    | CsvRecord.outOfFuel => none
    | CsvRecord.eof => some []
    | CsvRecord.fields fs rest =>
      match csvReadAll comma n rest (if fieldsPerRecord = 0 then fs.length else fieldsPerRecord) with
      | none => none
      | some results => some (csvResult fieldsPerRecord fs :: results)

/-- What stands in a quoted field for a piece of input that spans line ends:
`readLine` turns each `\r\n` into `\n` and drops a `\r` at the very end of the
input. -/
def crlfToLf : List Char → List Char
  | [] => []
  | c :: t =>
    if c = '\r' ∧ (t = [] ∨ t.head? = some '\n') then crlfToLf t else c :: crlfToLf t

/-- The results `reader.Read()` delivers before `io.EOF`, for the CSV reader
`main` sets up (`Comma = ';'`, lenient quotes).  There is such a finite sequence
only when the source ends in end-of-stream; a source that fails with another
error makes `Read` return that error again and again and never `io.EOF`, which
is `none`. -/
def lazyCsvResults (r : Reader) : Option (List ReadResult) :=
  match r.atEnd with
  | ReadError.EOF => csvReadAll ';' (r.unread.length + 1) r.unread 0
  | ReadError.other _ => none

/-- Lines 51-94 of `main` with the CSV reader `main` sets up: the exit status
and the rows written, or `none` when the read loop never reaches `io.EOF` and
the run does not end. -/
def processCsvInput (columnIndices : List Int) (recordsToSkip : Int) (input : Reader) :
    Option (Nat × List (List String)) :=
  match skipRecords input recordsToSkip with
  | (some _, _) => some (1, [])
  | (none, reader) =>
    match lazyCsvResults reader with
    | some results => some (0, readLoop columnIndices results [])
    | none => none

/-- The rows the read loop is to write, in the words of the specification: one
row per successfully read record, in input order, the projection of that
record; a failed read contributes nothing. -/
def rowsOfResults (columnIndices : List Int) (results : List ReadResult) : List (List String) :=
  results.filterMap fun res =>
    match res with
    | ReadResult.record record => some (keepColumns record columnIndices)
    | ReadResult.failure _ => none

/-! ## Lemmas -/

theorem exact_lit (c : Char) : Exact (lit c) (fun m => m = [c]) := by
  intro x m r
  cases x with
  | nil =>
    simp only [lit, List.not_mem_nil, false_iff]
    rintro ⟨rfl, h⟩
    simp at h
  | cons y t =>
    by_cases h : y = c
    · subst h
      simp only [lit, if_true, List.mem_singleton, Prod.mk.injEq]
      constructor
      · rintro ⟨rfl, rfl⟩; exact ⟨rfl, rfl⟩
      · rintro ⟨rfl, h2⟩
        simp only [List.singleton_append, List.cons.injEq, true_and] at h2
        exact ⟨rfl, h2.symm⟩
    · simp only [lit, if_neg h, List.not_mem_nil, false_iff]
      rintro ⟨rfl, h2⟩
      simp only [List.singleton_append, List.cons.injEq] at h2
      exact h h2.1

theorem exact_digit : Exact digit (fun m => ∃ d, d.isDigit = true ∧ m = [d]) := by
  intro x m r
  cases x with
  | nil =>
    simp only [digit, List.not_mem_nil, false_iff]
    rintro ⟨⟨d, -, rfl⟩, h⟩
    simp at h
  | cons y t =>
    by_cases h : y.isDigit = true
    · simp only [digit, if_pos h, List.mem_singleton, Prod.mk.injEq]
      constructor
      · rintro ⟨rfl, rfl⟩; exact ⟨⟨y, h, rfl⟩, rfl⟩
      · rintro ⟨⟨d, hd, rfl⟩, h2⟩
        simp only [List.singleton_append, List.cons.injEq] at h2
        exact ⟨by rw [h2.1], h2.2.symm⟩
    · simp only [digit, if_neg h, List.not_mem_nil, false_iff]
      rintro ⟨⟨d, hd, rfl⟩, h2⟩
      simp only [List.singleton_append, List.cons.injEq] at h2
      exact h (h2.1 ▸ hd)

theorem exact_eps : Exact eps (fun m => m = []) := by
  intro x m r
  simp only [eps, List.mem_singleton, Prod.mk.injEq]
  constructor
  · rintro ⟨rfl, rfl⟩; exact ⟨rfl, rfl⟩
  · rintro ⟨rfl, h⟩; exact ⟨rfl, h.symm⟩

theorem exact_seq {a b : Matcher} {La Lb : List Char → Prop} (ha : Exact a La) (hb : Exact b Lb) :
    Exact (seq a b) (fun m => ∃ m1 m2, La m1 ∧ Lb m2 ∧ m = m1 ++ m2) := by
  intro x m r
  simp only [seq, List.mem_flatMap, List.mem_map, Prod.exists, Prod.mk.injEq]
  constructor
  · rintro ⟨m1, r1, h1, m2, r2, h2, rfl, rfl⟩
    obtain ⟨l1, rfl⟩ := (ha _ _ _).1 h1
    obtain ⟨l2, rfl⟩ := (hb _ _ _).1 h2
    exact ⟨⟨m1, m2, l1, l2, rfl⟩, by simp⟩
  · rintro ⟨⟨m1, m2, l1, l2, rfl⟩, rfl⟩
    exact ⟨m1, m2 ++ r, (ha _ _ _).2 ⟨l1, by simp⟩, m2, r, (hb _ _ _).2 ⟨l2, rfl⟩, rfl, rfl⟩

theorem exact_opt {a : Matcher} {La : List Char → Prop} (ha : Exact a La) :
    Exact (opt a) (fun m => La m ∨ m = []) := by
  intro x m r
  simp only [opt, List.mem_append, List.mem_singleton, Prod.mk.injEq]
  constructor
  · rintro (h | ⟨rfl, rfl⟩)
    · obtain ⟨l, rfl⟩ := (ha _ _ _).1 h
      exact ⟨Or.inl l, rfl⟩
    · exact ⟨Or.inr rfl, rfl⟩
  · rintro ⟨l | rfl, rfl⟩
    · exact Or.inl ((ha _ _ _).2 ⟨l, rfl⟩)
    · exact Or.inr ⟨rfl, rfl⟩

theorem exact_congr {a : Matcher} {L L' : List Char → Prop} (ha : Exact a L)
    (h : ∀ m, L m ↔ L' m) : Exact a L' := by
  intro x m r
  rw [ha, h]

theorem exact_times_digit (n : Nat) :
    Exact (times digit n) (fun m => m.length = n ∧ Digits m) := by
  induction n with
  | zero =>
    refine exact_congr exact_eps ?_
    intro m
    constructor
    · rintro rfl; exact ⟨rfl, by intro c hc; simp at hc⟩
    · rintro ⟨h, -⟩; exact List.length_eq_zero.1 h
  | succ n ih =>
    refine exact_congr (exact_seq exact_digit ih) ?_
    intro m
    constructor
    · rintro ⟨m1, m2, ⟨d, hd, rfl⟩, ⟨hl, hds⟩, rfl⟩
      refine ⟨by simp [hl], ?_⟩
      intro c hc
      simp only [List.singleton_append, List.mem_cons] at hc
      rcases hc with rfl | hc
      · exact hd
      · exact hds c hc
    · rintro ⟨hl, hds⟩
      cases m with
      | nil => simp at hl
      | cons d t =>
        refine ⟨[d], t, ⟨d, hds d (by simp), rfl⟩, ⟨by simpa using hl, ?_⟩, rfl⟩
        intro c hc
        exact hds c (by simp [hc])

theorem exact_upTo_digit (k : Nat) :
    Exact (upTo digit k) (fun m => m.length ≤ k ∧ Digits m) := by
  induction k with
  | zero =>
    refine exact_congr exact_eps ?_
    intro m
    constructor
    · rintro rfl; exact ⟨le_refl _, by intro c hc; simp at hc⟩
    · rintro ⟨h, -⟩; exact List.length_eq_zero.1 (Nat.le_zero.1 h)
  | succ k ih =>
    refine exact_congr (exact_opt (exact_seq exact_digit ih)) ?_
    intro m
    constructor
    · rintro (⟨m1, m2, ⟨d, hd, rfl⟩, ⟨hl, hds⟩, rfl⟩ | rfl)
      · refine ⟨by simp; omega, ?_⟩
        intro c hc
        simp only [List.singleton_append, List.mem_cons] at hc
        rcases hc with rfl | hc
        · exact hd
        · exact hds c hc
      · exact ⟨Nat.zero_le _, by intro c hc; simp at hc⟩
    · rintro ⟨hl, hds⟩
      cases m with
      | nil => exact Or.inr rfl
      | cons d t =>
        refine Or.inl ⟨[d], t, ⟨d, hds d (by simp), rfl⟩, ⟨by simp at hl; omega, ?_⟩, rfl⟩
        intro c hc
        exact hds c (by simp [hc])

theorem exact_rep_digit (lo hi : Nat) (h : lo ≤ hi) :
    Exact (rep digit lo hi) (fun m => lo ≤ m.length ∧ m.length ≤ hi ∧ Digits m) := by
  refine exact_congr (exact_seq (exact_times_digit lo) (exact_upTo_digit (hi - lo))) ?_
  intro m
  constructor
  · rintro ⟨m1, m2, ⟨hl1, hd1⟩, ⟨hl2, hd2⟩, rfl⟩
    refine ⟨by simp; omega, by simp; omega, ?_⟩
    intro c hc
    rcases List.mem_append.1 hc with hc | hc
    · exact hd1 c hc
    · exact hd2 c hc
  · rintro ⟨h1, h2, hd⟩
    refine ⟨m.take lo, m.drop lo, ⟨by simp; omega, ?_⟩, ⟨by simp; omega, ?_⟩, by simp⟩
    · intro c hc; exact hd c (List.mem_of_mem_take hc)
    · intro c hc; exact hd c (List.mem_of_mem_drop hc)

theorem mem_starFuel {a : Matcher} {La : List Char → Prop} (ha : Exact a La) (n : Nat) :
    ∀ x m r, (m, r) ∈ starFuel a n x ↔
      ((∃ gs : List (List Char), gs.length ≤ n ∧ (∀ g ∈ gs, La g) ∧ m = gs.flatten) ∧
        x = m ++ r) := by
  induction n with
  | zero =>
    intro x m r
    simp only [starFuel, List.mem_singleton, Prod.mk.injEq]
    constructor
    · rintro ⟨rfl, rfl⟩
      exact ⟨⟨[], le_refl _, by intro g hg; simp at hg, rfl⟩, rfl⟩
    · rintro ⟨⟨gs, hl, -, rfl⟩, hx⟩
      have : gs = [] := List.length_eq_zero.1 (Nat.le_zero.1 hl)
      subst this
      exact ⟨rfl, hx.symm⟩
  | succ n ih =>
    intro x m r
    simp only [starFuel, List.mem_append, List.mem_flatMap, List.mem_map, Prod.exists,
      Prod.mk.injEq, List.mem_singleton]
    constructor
    · rintro (⟨m1, r1, h1, m2, r2, h2, rfl, rfl⟩ | ⟨rfl, rfl⟩)
      · obtain ⟨l1, rfl⟩ := (ha _ _ _).1 h1
        obtain ⟨⟨gs, hl, hg, rfl⟩, rfl⟩ := (ih _ _ _).1 h2
        refine ⟨⟨m1 :: gs, by simp; omega, ?_, by simp⟩, by simp⟩
        intro g hg'
        rcases List.mem_cons.1 hg' with rfl | hg'
        · exact l1
        · exact hg g hg'
      · exact ⟨⟨[], Nat.zero_le _, by intro g hg; simp at hg, rfl⟩, rfl⟩
    · rintro ⟨⟨gs, hl, hg, rfl⟩, rfl⟩
      cases gs with
      | nil => exact Or.inr ⟨rfl, rfl⟩
      | cons g gs =>
        refine Or.inl ⟨g, gs.flatten ++ r, (ha _ _ _).2 ⟨hg g (by simp), by simp⟩,
          gs.flatten, r, (ih _ _ _).2 ⟨⟨gs, by simp at hl; omega, ?_, rfl⟩, rfl⟩, by simp, rfl⟩
        intro g' hg'
        exact hg g' (by simp [hg'])

theorem length_le_flatten (gs : List (List Char)) (h : ∀ g ∈ gs, g ≠ []) :
    gs.length ≤ gs.flatten.length := by
  induction gs with
  | nil => simp
  | cons g gs ih =>
    have h1 : g ≠ [] := h g (by simp)
    have h2 := ih (fun g' hg' => h g' (by simp [hg']))
    have h3 : 0 < g.length := List.length_pos.2 h1
    simp only [List.length_cons, List.flatten_cons, List.length_append]
    omega

theorem exact_star {a : Matcher} {La : List Char → Prop} (ha : Exact a La)
    (hne : ∀ m, La m → m ≠ []) :
    Exact (star a) (fun m => ∃ gs : List (List Char), (∀ g ∈ gs, La g) ∧ m = gs.flatten) := by
  intro x m r
  rw [star, mem_starFuel ha]
  constructor
  · rintro ⟨⟨gs, -, hg, rfl⟩, rfl⟩
    exact ⟨⟨gs, hg, rfl⟩, rfl⟩
  · rintro ⟨⟨gs, hg, rfl⟩, rfl⟩
    refine ⟨⟨gs, ?_, hg, rfl⟩, rfl⟩
    have := length_le_flatten gs (fun g h => hne g (hg g h))
    simp only [List.length_append]
    omega

theorem exact_thousandsGroup : Exact (seq (lit '.') (times digit 3)) ThousandsGroup := by
  refine exact_congr (exact_seq (exact_lit '.') (exact_times_digit 3)) ?_
  intro m
  constructor
  · rintro ⟨m1, m2, rfl, ⟨hl, hd⟩, rfl⟩; exact ⟨m2, rfl, hl, hd⟩
  · rintro ⟨d, rfl, hl, hd⟩; exact ⟨['.'], d, rfl, ⟨hl, hd⟩, rfl⟩

theorem exact_decimalPart : Exact (seq (lit ',') (rep digit 1 2)) DecimalPart := by
  refine exact_congr (exact_seq (exact_lit ',') (exact_rep_digit 1 2 (by decide))) ?_
  intro m
  constructor
  · rintro ⟨m1, m2, rfl, ⟨h1, h2, hd⟩, rfl⟩; exact ⟨m2, rfl, h1, h2, hd⟩
  · rintro ⟨d, rfl, h1, h2, hd⟩; exact ⟨[','], d, rfl, ⟨h1, h2, hd⟩, rfl⟩

theorem thousandsGroup_ne_nil (m : List Char) (h : ThousandsGroup m) : m ≠ [] := by
  obtain ⟨d, rfl, -⟩ := h
  simp

/-- Capture group 1 matches exactly the well-formed amounts. -/
theorem exact_amountGroup : Exact amountGroup WellFormedAmount := by
  refine exact_congr
    (exact_seq (exact_opt (exact_lit '-'))
      (exact_seq (exact_rep_digit 1 3 (by decide))
        (exact_seq (exact_star exact_thousandsGroup thousandsGroup_ne_nil)
          (exact_opt exact_decimalPart)))) ?_
  intro m
  constructor
  · rintro ⟨sign, m1, hs, ⟨ds, m2, hds, ⟨gsf, frac, ⟨gs, hgs, rfl⟩, hf, rfl⟩, rfl⟩, rfl⟩
    exact ⟨sign, ds, gs, frac, rfl, hs, hds, hgs, hf⟩
  · rintro ⟨sign, ds, gs, frac, rfl, hs, hds, hgs, hf⟩
    exact ⟨sign, _, hs, ⟨ds, _, hds, ⟨gs.flatten, frac, ⟨gs, hgs, rfl⟩, hf, rfl⟩, rfl⟩, rfl⟩

theorem digits_amountChar {m : List Char} (h : Digits m) : ∀ c ∈ m, amountChar c = true := by
  intro c hc
  simp [amountChar, h c hc]

theorem wellFormed_amountChar {m : List Char} (h : WellFormedAmount m) :
    ∀ c ∈ m, amountChar c = true := by
  obtain ⟨sign, ds, gs, frac, rfl, hs, ⟨-, -, hds⟩, hgs, hf⟩ := h
  intro c hc
  simp only [List.mem_append, List.mem_flatten] at hc
  rcases hc with hc | hc | ⟨g, hg, hc⟩ | hc
  · rcases hs with rfl | rfl
    · simp at hc; subst hc; decide
    · simp at hc
  · exact digits_amountChar hds c hc
  · obtain ⟨d, rfl, -, hd⟩ := hgs g hg
    rcases List.mem_cons.1 hc with rfl | hc
    · decide
    · exact digits_amountChar hd c hc
  · rcases hf with ⟨d, rfl, -, -, hd⟩ | rfl
    · rcases List.mem_cons.1 hc with rfl | hc
      · decide
      · exact digits_amountChar hd c hc
    · simp at hc

theorem wellFormed_ne_nil {m : List Char} (h : WellFormedAmount m) : m ≠ [] := by
  obtain ⟨sign, ds, gs, frac, rfl, -, ⟨h1, -, -⟩, -, -⟩ := h
  intro h2
  have := congrArg List.length h2
  simp only [List.length_append, List.length_nil] at this
  omega

theorem exact_currencySuffix : Exact currencySuffix (fun m => m = ['\u00A0', '€']) := by
  refine exact_congr (exact_seq (exact_lit '\u00A0') (exact_lit '€')) ?_
  intro m
  constructor
  · rintro ⟨m1, m2, rfl, rfl, rfl⟩; rfl
  · rintro rfl; exact ⟨_, _, rfl, rfl, rfl⟩

/-- The matches of the whole pattern at the front of the input. -/
theorem mem_ammountPattern (x w c : List Char) :
    (w, c) ∈ ammountPattern x ↔
      (WellFormedAmount c ∧ w = c ++ ['\u00A0', '€'] ∧ ∃ r, x = c ++ '\u00A0' :: '€' :: r) := by
  simp only [ammountPattern, List.mem_flatMap, List.mem_map, Prod.exists, Prod.mk.injEq]
  constructor
  · rintro ⟨m1, r1, h1, m2, r2, h2, rfl, rfl⟩
    obtain ⟨l1, rfl⟩ := (exact_amountGroup _ _ _).1 h1
    obtain ⟨rfl, rfl⟩ := (exact_currencySuffix _ _ _).1 h2
    exact ⟨l1, rfl, r2, rfl⟩
  · rintro ⟨l1, rfl, r, rfl⟩
    exact ⟨c, '\u00A0' :: '€' :: r, (exact_amountGroup _ _ _).2 ⟨l1, rfl⟩, ['\u00A0', '€'], r,
      (exact_currencySuffix _ _ _).2 ⟨rfl, rfl⟩, rfl, rfl⟩

theorem takeWhile_amountChar (c r : List Char) (h : ∀ a ∈ c, amountChar a = true) :
    (c ++ '\u00A0' :: r).takeWhile amountChar = c := by
  induction c with
  | nil => simp [List.takeWhile, show amountChar '\u00A0' = false by decide]
  | cons a t ih =>
    have ha : amountChar a = true := h a (by simp)
    simp only [List.cons_append, List.takeWhile_cons, ha, if_true]
    rw [ih (fun b hb => h b (by simp [hb]))]

/-- At a given start position the text of group 1 is determined by the input:
it is the longest run of amount characters at the front. -/
theorem ammountPattern_unique (x w c : List Char) (h : (w, c) ∈ ammountPattern x) :
    c = x.takeWhile amountChar ∧ w = c ++ ['\u00A0', '€'] := by
  obtain ⟨hwf, rfl, r, rfl⟩ := (mem_ammountPattern _ _ _).1 h
  exact ⟨(takeWhile_amountChar c _ (wellFormed_amountChar hwf)).symm, rfl⟩

theorem matchAt_iff_mem (t c : List Char) :
    MatchAt t c ↔ (c ++ ['\u00A0', '€'], c) ∈ ammountPattern t := by
  rw [mem_ammountPattern]
  constructor
  · rintro ⟨h1, h2⟩; exact ⟨h1, rfl, h2⟩
  · rintro ⟨h1, -, h2⟩; exact ⟨h1, h2⟩

theorem matchAt_unique {t c : List Char} (h : MatchAt t c) : c = t.takeWhile amountChar :=
  (ammountPattern_unique _ _ _ ((matchAt_iff_mem _ _).1 h)).1

theorem findFrom_nil : findFrom [] = [] := by rfl

theorem findFrom_cons_of_nil (a : Char) (t : List Char) (h : ammountPattern (a :: t) = []) :
    findFrom (a :: t) = findFrom t := by
  rw [findFrom, h]

theorem findFrom_cons_of_cons (a : Char) (t : List Char) (m : List Char × List Char)
    (rest : List (List Char × List Char)) (h : ammountPattern (a :: t) = m :: rest) :
    findFrom (a :: t) = [String.mk m.1, String.mk m.2] := by
  rw [findFrom, h]

/-- What the search returns: either nothing, and then the pattern matches at
no position; or the match at the leftmost position where the pattern matches. -/
theorem findFrom_cases (x : List Char) :
    (findFrom x = [] ∧ ∀ pre t c, x = pre ++ t → ¬ MatchAt t c) ∨
    (∃ pre t c, x = pre ++ t ∧ MatchAt t c ∧
      (∀ pre' t' c', x = pre' ++ t' → pre'.length < pre.length → ¬ MatchAt t' c') ∧
      findFrom x = [String.mk (c ++ ['\u00A0', '€']), String.mk c]) := by
  induction x with
  | nil =>
    left
    refine ⟨findFrom_nil, ?_⟩
    intro pre t c h hm
    obtain ⟨hwf, r, hr⟩ := hm
    have ht : t = [] := (List.append_eq_nil.1 h.symm).2
    rw [ht] at hr
    have := congrArg List.length hr
    simp only [List.length_nil, List.length_append, List.length_cons] at this
    omega
  | cons a x ih =>
    cases hp : ammountPattern (a :: x) with
    | nil =>
      have hno : ∀ c, ¬ MatchAt (a :: x) c := by
        intro c hc
        have := (matchAt_iff_mem _ _).1 hc
        rw [hp] at this
        simp at this
      rw [findFrom_cons_of_nil a x hp]
      rcases ih with ⟨h0, hall⟩ | ⟨pre, t, c, hx, hm, hleft, hf⟩
      · left
        refine ⟨h0, ?_⟩
        intro pre t c h
        cases pre with
        | nil => simp only [List.nil_append] at h; subst h; exact hno c
        | cons b pre =>
          simp only [List.cons_append, List.cons.injEq] at h
          exact hall pre t c h.2
      · right
        refine ⟨a :: pre, t, c, by simp [hx], hm, ?_, hf⟩
        intro pre' t' c' h hlt
        cases pre' with
        | nil => simp only [List.nil_append] at h; subst h; exact hno c'
        | cons b pre' =>
          simp only [List.cons_append, List.cons.injEq] at h
          exact hleft pre' t' c' h.2 (by simpa using hlt)
    | cons m rest =>
      right
      have hmem : (m.1, m.2) ∈ ammountPattern (a :: x) := by rw [hp]; simp
      obtain ⟨hwf, hw, hr⟩ := (mem_ammountPattern _ _ _).1 hmem
      refine ⟨[], a :: x, m.2, rfl, ⟨hwf, hr⟩, ?_, ?_⟩
      · intro pre' t' c' _ hlt
        simp at hlt
      · rw [findFrom_cons_of_cons a x m rest hp, hw]

/-- A match at the very front of the field is the one the search returns. -/
theorem findFrom_of_matchAt (x c : List Char) (h : MatchAt x c) :
    findFrom x = [String.mk (c ++ ['\u00A0', '€']), String.mk c] := by
  rcases findFrom_cases x with ⟨-, hall⟩ | ⟨pre, t, c', hx, hm, hleft, hf⟩
  · exact absurd h (hall [] x c rfl)
  · cases pre with
    | nil =>
      simp only [List.nil_append] at hx
      subst hx
      have h1 := matchAt_unique h
      have h2 := matchAt_unique hm
      rw [hf, h1, h2]
    | cons b pre => exact absurd h (hleft [] x c rfl (by simp))

/-- When the pattern matches nowhere the search returns nothing. -/
theorem findFrom_of_no_match (x : List Char) (h : ∀ pre t c, x = pre ++ t → ¬ MatchAt t c) :
    findFrom x = [] := by
  rcases findFrom_cases x with ⟨h0, -⟩ | ⟨pre, t, c, hx, hm, -, -⟩
  · exact h0
  · exact absurd hm (h pre t c hx)

/-- A field without a no-break space has no match. -/
theorem findFrom_of_no_nbsp (x : List Char) (h : '\u00A0' ∉ x) : findFrom x = [] := by
  apply findFrom_of_no_match
  rintro pre t c rfl ⟨-, r, rfl⟩
  exact h (by simp)

theorem extractAmount_of_nil (v : String) (h : findFrom v.data = []) : extractAmount v = v := by
  simp [extractAmount, FindStringSubmatch, h]

theorem extractAmount_of_pair (v w c : String) (h : findFrom v.data = [w, c]) :
    extractAmount v = c := by
  simp [extractAmount, FindStringSubmatch, h]

/-- The extractor either leaves the field alone (no match anywhere) or returns
the well-formed amount of the leftmost match. -/
theorem extractAmount_cases (v : String) :
    (extractAmount v = v ∧ ∀ pre t c, v.data = pre ++ t → ¬ MatchAt t c) ∨
    (∃ pre t c, v.data = pre ++ t ∧ MatchAt t c ∧
      (∀ pre' t' c', v.data = pre' ++ t' → pre'.length < pre.length → ¬ MatchAt t' c') ∧
      extractAmount v = String.mk c) := by
  rcases findFrom_cases v.data with ⟨h0, hall⟩ | ⟨pre, t, c, hx, hm, hleft, hf⟩
  · exact Or.inl ⟨extractAmount_of_nil v h0, hall⟩
  · exact Or.inr ⟨pre, t, c, hx, hm, hleft, extractAmount_of_pair v _ _ hf⟩

theorem contains_iff (slice : List Int) (value : Int) :
    contains slice value = true ↔ value ∈ slice := by
  induction slice with
  | nil => simp [contains]
  | cons item rest ih =>
    by_cases h : item = value
    · simp [contains, h]
    · have h' : ¬ value = item := fun e => h e.symm
      simp [contains, h, h', ih]

theorem keepColumnsLoop_eq (columnsToKeep : List Int) (rest : List String) :
    ∀ (i : Nat) (newRecord : List String),
      keepColumnsLoop columnsToKeep i rest newRecord =
        newRecord ++ ((rest.enumFrom i).filter fun p =>
          decide ((p.1 : Int) ∈ columnsToKeep)).map fun p => extractAmount p.2 := by
  induction rest with
  | nil => intro i newRecord; simp [keepColumnsLoop]
  | cons value rest ih =>
    intro i newRecord
    by_cases h : (i : Int) ∈ columnsToKeep
    · have hc : contains columnsToKeep (i : Int) = true := (contains_iff _ _).2 h
      simp [keepColumnsLoop, hc, ih, List.filter_cons, h]
    · have hc : ¬ contains columnsToKeep (i : Int) = true := fun e => h ((contains_iff _ _).1 e)
      simp [keepColumnsLoop, hc, ih, List.filter_cons, h]

theorem keepColumns_eq (record : List String) (columnsToKeep : List Int) :
    keepColumns record columnsToKeep = projectInRecordOrder record columnsToKeep := by
  simp [keepColumns, projectInRecordOrder, keepColumnsLoop_eq, List.enum_eq_enumFrom]

/-- The output depends on the selection only through which positions of the
record occur in it. -/
theorem keepColumns_congr (record : List String) (c1 c2 : List Int)
    (h : ∀ i : Nat, i < record.length → ((i : Int) ∈ c1 ↔ (i : Int) ∈ c2)) :
    keepColumns record c1 = keepColumns record c2 := by
  rw [keepColumns_eq, keepColumns_eq, projectInRecordOrder, projectInRecordOrder]
  congr 1
  apply List.filter_congr
  intro p hp
  have hlt := List.fst_lt_of_mem_enum hp
  simp only [h p.1 hlt]

theorem keepColumns_sublist (record : List String) (columnsToKeep : List Int) :
    (keepColumns record columnsToKeep).Sublist (record.map extractAmount) := by
  rw [keepColumns_eq, projectInRecordOrder]
  have h1 : (record.enum.filter fun p => decide ((p.1 : Int) ∈ columnsToKeep)).Sublist
      record.enum := List.filter_sublist _
  have h2 := h1.map (fun p : Nat × String => extractAmount p.2)
  have h3 : record.enum.map (fun p : Nat × String => extractAmount p.2) =
      record.map extractAmount := by
    have h4 : record.enum.map (fun p : Nat × String => extractAmount p.2) =
        (record.enum.map Prod.snd).map extractAmount := by
      rw [List.map_map]; rfl
    rw [h4, List.enum_map_snd]
  rw [h3] at h2
  exact h2

theorem keepColumns_all (record : List String) (selection : List Int)
    (h : ∀ i : Nat, i < record.length → (i : Int) ∈ selection) :
    keepColumns record selection = record.map extractAmount := by
  rw [keepColumns_eq, projectInRecordOrder]
  have h1 : (record.enum.filter fun p => decide ((p.1 : Int) ∈ selection)) = record.enum := by
    apply List.filter_eq_self.2
    intro p hp
    simpa using h p.1 (List.fst_lt_of_mem_enum hp)
  have h4 : record.enum.map (fun p : Nat × String => extractAmount p.2) =
      (record.enum.map Prod.snd).map extractAmount := by
    rw [List.map_map]; rfl
  rw [h1, h4, List.enum_map_snd]

theorem matchAt_append_suffix (s : String) (h : WellFormedAmount s.data) :
    MatchAt (s ++ "\u00A0€").data s.data :=
  ⟨h, [], by simp⟩

theorem extractAmount_of_wellFormed (s : String) (h : WellFormedAmount s.data) :
    extractAmount (s ++ "\u00A0€") = s :=
  extractAmount_of_pair _ _ _ (findFrom_of_matchAt _ _ (matchAt_append_suffix s h))

theorem wellFormed_no_nbsp {c : List Char} (h : WellFormedAmount c) : '\u00A0' ∉ c := by
  intro hc
  have := wellFormed_amountChar h '\u00A0' hc
  exact absurd this (by decide)

theorem extractAmount_fixed (v : String) : extractAmount (extractAmount v) = extractAmount v := by
  rcases extractAmount_cases v with ⟨h, -⟩ | ⟨pre, t, c, -, hm, -, h⟩
  · rw [h, h]
  · rw [h]
    exact extractAmount_of_nil _ (findFrom_of_no_nbsp c (wellFormed_no_nbsp hm.1))

theorem findFrom_of_no_suffix (x : List Char) (h : ¬ ∃ a b, x = a ++ '\u00A0' :: '€' :: b) :
    findFrom x = [] := by
  apply findFrom_of_no_match
  rintro pre t c rfl ⟨-, r, rfl⟩
  exact h ⟨pre ++ c, r, by simp⟩

theorem le_foldl_decimalStep (ds : List Char) : ∀ acc : Nat, acc ≤ ds.foldl decimalStep acc := by
  induction ds with
  | nil => intro acc; exact le_refl _
  | cons c t ih =>
    intro acc
    have h1 := ih (decimalStep acc c)
    have h2 : acc ≤ decimalStep acc c := by unfold decimalStep; omega
    simpa using le_trans h2 h1

theorem parseUintLoop_digits (ds : List Char) (hd : Digits ds) :
    ∀ acc : Nat, acc ≤ maxUint64 →
    parseUintLoop ds acc =
      if ds.foldl decimalStep acc ≤ maxUint64 then .ok (ds.foldl decimalStep acc)
      else .error .ErrRange := by
  induction ds with
  | nil =>
    intro acc h
    simp only [parseUintLoop, List.foldl_nil]
    rw [if_pos h]
  | cons c t ih =>
    intro acc _
    have hc : c.isDigit = true := hd c (by simp)
    have ht : Digits t := fun a ha => hd a (by simp [ha])
    have hge := le_foldl_decimalStep t (decimalStep acc c)
    simp only [parseUintLoop, hc, if_true, List.foldl_cons]
    by_cases h1 : acc ≥ maxUint64 / 10 + 1
    · have h2 : ¬ List.foldl decimalStep (decimalStep acc c) t ≤ maxUint64 := by
        have : maxUint64 < decimalStep acc c := by
          unfold decimalStep; unfold maxUint64 at *; omega
        omega
      rw [if_pos h1, if_neg h2]
    · rw [if_neg h1]
      by_cases h3 : acc * 10 + (c.toNat - '0'.toNat) > maxUint64
      · have h2 : ¬ List.foldl decimalStep (decimalStep acc c) t ≤ maxUint64 := by
          have : maxUint64 < decimalStep acc c := h3
          omega
        simp only [h3, if_true]
        rw [if_neg h2]
      · simp only [h3, if_false]
        exact ih ht _ (by show acc * 10 + (c.toNat - '0'.toNat) ≤ maxUint64; omega)

theorem parseUintLoop_ok_digits (ds : List Char) :
    ∀ (acc v : Nat), parseUintLoop ds acc = .ok v → Digits ds := by
  induction ds with
  | nil => intro acc v _ c hc; simp at hc
  | cons c t ih =>
    intro acc v h
    by_cases hc : c.isDigit = true
    · simp only [parseUintLoop, hc, if_true] at h
      split at h
      · simp at h
      · split at h
        · simp at h
        · intro a ha
          rcases List.mem_cons.1 ha with rfl | ha
          · exact hc
          · exact ih _ _ h a ha
    · simp [parseUintLoop, hc] at h

/-- The function `ParseUint` succeeds exactly on a non-empty string of digits whose value
fits `uint64`, and returns that value. -/
theorem parseUint_ok_iff (ds : List Char) (v : Nat) :
    ParseUint ds = .ok v ↔ (ds ≠ [] ∧ Digits ds ∧ v = decimalValue ds ∧ v ≤ maxUint64) := by
  cases ds with
  | nil => simp [ParseUint]
  | cons c t =>
    simp only [ParseUint, ne_eq, List.cons_ne_nil, not_false_eq_true, true_and]
    constructor
    · intro h
      have hd := parseUintLoop_ok_digits _ _ _ h
      rw [parseUintLoop_digits _ hd 0 (Nat.zero_le _)] at h
      by_cases hle : List.foldl decimalStep 0 (c :: t) ≤ maxUint64
      · rw [if_pos hle] at h
        have hv : List.foldl decimalStep 0 (c :: t) = v := by simpa using h
        exact ⟨hd, by rw [← hv]; rfl, by rw [← hv]; exact hle⟩
      · rw [if_neg hle] at h
        simp at h
    · rintro ⟨hd, hv, hle⟩
      rw [parseUintLoop_digits _ hd 0 (Nat.zero_le _)]
      have hle' : List.foldl decimalStep 0 (c :: t) ≤ maxUint64 := by
        rw [hv] at hle; exact hle
      rw [if_pos hle', hv]; rfl

theorem decimalInteger_nil (n : Int) : ¬ DecimalInteger [] n := by
  rintro ⟨ds, hne, -, (⟨h, -⟩ | ⟨h, -⟩ | ⟨h, -⟩)⟩
  · exact hne h.symm
  · simp at h
  · simp at h

theorem decimalInteger_minus (t : List Char) (n : Int) :
    DecimalInteger ('-' :: t) n ↔ (t ≠ [] ∧ Digits t ∧ n = -(decimalValue t : Int)) := by
  constructor
  · rintro ⟨ds, hne, hd, (⟨h, -⟩ | ⟨h, -⟩ | ⟨h, hn⟩)⟩
    · have := hd '-' (by rw [← h]; simp)
      exact absurd this (by decide)
    · simp at h
    · simp only [List.cons.injEq, true_and] at h
      subst h
      exact ⟨hne, hd, hn⟩
  · rintro ⟨hne, hd, hn⟩
    exact ⟨t, hne, hd, Or.inr (Or.inr ⟨rfl, hn⟩)⟩

theorem decimalInteger_plus (t : List Char) (n : Int) :
    DecimalInteger ('+' :: t) n ↔ (t ≠ [] ∧ Digits t ∧ n = (decimalValue t : Int)) := by
  constructor
  · rintro ⟨ds, hne, hd, (⟨h, -⟩ | ⟨h, hn⟩ | ⟨h, -⟩)⟩
    · have := hd '+' (by rw [← h]; simp)
      exact absurd this (by decide)
    · simp only [List.cons.injEq, true_and] at h
      subst h
      exact ⟨hne, hd, hn⟩
    · simp at h
  · rintro ⟨hne, hd, hn⟩
    exact ⟨t, hne, hd, Or.inr (Or.inl ⟨rfl, hn⟩)⟩

theorem decimalInteger_unsigned (c : Char) (t : List Char) (n : Int)
    (h1 : c ≠ '+') (h2 : c ≠ '-') :
    DecimalInteger (c :: t) n ↔ (Digits (c :: t) ∧ n = (decimalValue (c :: t) : Int)) := by
  constructor
  · rintro ⟨ds, -, hd, (⟨h, hn⟩ | ⟨h, -⟩ | ⟨h, -⟩)⟩
    · subst h; exact ⟨hd, hn⟩
    · simp only [List.cons.injEq] at h; exact absurd h.1 h1
    · simp only [List.cons.injEq] at h; exact absurd h.1 h2
  · rintro ⟨hd, hn⟩
    exact ⟨c :: t, by simp, hd, Or.inl ⟨rfl, hn⟩⟩

theorem maxUint64_eq : maxUint64 = 18446744073709551615 := by decide

theorem atoi_minus (t : List Char) : Atoi ⟨'-' :: t⟩ =
    match ParseUint t with
    | .error e => .error e
    | .ok un => if un > 2 ^ 63 then .error .ErrRange else .ok (-(un : Int)) := by
  simp only [Atoi]
  rw [show (if ('-' == '+' || '-' == '-') = true then t else '-' :: t) = t by rfl]
  cases ParseUint t with
  | error e => rfl
  | ok un => simp

theorem atoi_plus (t : List Char) : Atoi ⟨'+' :: t⟩ =
    match ParseUint t with
    | .error e => .error e
    | .ok un => if un ≥ 2 ^ 63 then .error .ErrRange else .ok (un : Int) := by
  simp only [Atoi]
  rw [show (if ('+' == '+' || '+' == '-') = true then t else '+' :: t) = t by rfl]
  cases ParseUint t with
  | error e => rfl
  | ok un => simp

theorem atoi_unsigned (c : Char) (t : List Char) (h1 : c ≠ '+') (h2 : c ≠ '-') :
    Atoi ⟨c :: t⟩ =
    match ParseUint (c :: t) with
    | .error e => .error e
    | .ok un => if un ≥ 2 ^ 63 then .error .ErrRange else .ok (un : Int) := by
  simp only [Atoi]
  rw [show (if (c == '+' || c == '-') = true then t else c :: t) = c :: t by simp [h1, h2]]
  cases ParseUint (c :: t) with
  | error e => rfl
  | ok un => simp [h2]

/-- The function `Atoi` succeeds exactly on the valid integers, and returns their value. -/
theorem atoi_ok_iff (tok : String) (n : Int) : Atoi tok = .ok n ↔ ValidInt tok n := by
  cases tok with
  | mk l =>
  cases l with
  | nil =>
    simp only [Atoi, ValidInt]
    constructor
    · intro h; simp at h
    · rintro ⟨h, -⟩; exact absurd h (decimalInteger_nil n)
  | cons c t =>
    by_cases hm : c = '-'
    · subst hm
      simp only [ValidInt, decimalInteger_minus]
      rw [atoi_minus]
      cases hp : ParseUint t with
      | error e =>
        have hno := fun v => (parseUint_ok_iff t v).not.1 (by rw [hp]; simp)
        constructor
        · intro h; simp at h
        · rintro ⟨⟨hne, hd, rfl⟩, hlo, -⟩
          exfalso
          apply hno (decimalValue t)
          refine ⟨hne, hd, rfl, ?_⟩
          rw [maxUint64_eq]
          omega
      | ok un =>
        obtain ⟨hne, hd, hv, hle⟩ := (parseUint_ok_iff t un).1 hp
        subst hv
        by_cases hr : decimalValue t > 2 ^ 63
        · simp only [hr, if_true]
          constructor
          · intro h; simp at h
          · rintro ⟨⟨-, -, rfl⟩, hlo, -⟩; omega
        · simp only [hr, if_false]
          constructor
          · intro h
            have hn : n = -(decimalValue t : Int) := by simpa using h.symm
            exact ⟨⟨hne, hd, hn⟩, by omega, by omega⟩
          · rintro ⟨⟨-, -, rfl⟩, -, -⟩; rfl
    · by_cases hpl : c = '+'
      · subst hpl
        simp only [ValidInt, decimalInteger_plus]
        rw [atoi_plus]
        cases hp : ParseUint t with
        | error e =>
          have hno := fun v => (parseUint_ok_iff t v).not.1 (by rw [hp]; simp)
          constructor
          · intro h; simp at h
          · rintro ⟨⟨hne, hd, rfl⟩, -, hhi⟩
            exfalso
            apply hno (decimalValue t)
            refine ⟨hne, hd, rfl, ?_⟩
            rw [maxUint64_eq]
            omega
        | ok un =>
          obtain ⟨hne, hd, hv, hle⟩ := (parseUint_ok_iff t un).1 hp
          subst hv
          by_cases hr : decimalValue t ≥ 2 ^ 63
          · simp only [hr, if_true]
            constructor
            · intro h; simp at h
            · rintro ⟨⟨-, -, rfl⟩, -, hhi⟩; omega
          · simp only [hr, if_false]
            constructor
            · intro h
              have hn : n = (decimalValue t : Int) := by simpa using h.symm
              exact ⟨⟨hne, hd, hn⟩, by omega, by omega⟩
            · rintro ⟨⟨-, -, rfl⟩, -, -⟩; rfl
      · simp only [ValidInt, decimalInteger_unsigned c t n hpl hm]
        rw [atoi_unsigned c t hpl hm]
        cases hp : ParseUint (c :: t) with
        | error e =>
          have hno := fun v => (parseUint_ok_iff (c :: t) v).not.1 (by rw [hp]; simp)
          constructor
          · intro h; simp at h
          · rintro ⟨⟨hd, rfl⟩, -, hhi⟩
            exfalso
            apply hno (decimalValue (c :: t))
            refine ⟨by simp, hd, rfl, ?_⟩
            rw [maxUint64_eq]
            omega
        | ok un =>
          obtain ⟨hne, hd, hv, hle⟩ := (parseUint_ok_iff (c :: t) un).1 hp
          subst hv
          by_cases hr : decimalValue (c :: t) ≥ 2 ^ 63
          · simp only [hr, if_true]
            constructor
            · intro h; simp at h
            · rintro ⟨⟨-, rfl⟩, -, hhi⟩; omega
          · simp only [hr, if_false]
            constructor
            · intro h
              have hn : n = (decimalValue (c :: t) : Int) := by simpa using h.symm
              exact ⟨⟨hd, hn⟩, by omega, by omega⟩
            · rintro ⟨⟨-, rfl⟩, -, -⟩; rfl

theorem wrapInt64_pred (v : Int) (h1 : -(2 : Int) ^ 63 ≤ v) (h2 : v < (2 : Int) ^ 63) :
    wrapInt64 (v - 1) = if v = -(2 : Int) ^ 63 then (2 : Int) ^ 63 - 1 else v - 1 := by
  unfold wrapInt64
  norm_num at h1 h2 ⊢
  split <;> omega

theorem parseColumnsLoop_valid (toks : List String) (vals : List Int)
    (h : List.Forall₂ ValidInt toks vals) : ∀ columns : List Int,
    parseColumnsLoop toks columns =
      (some (columns ++ vals.map fun v => if v = -(2 : Int) ^ 63 then (2 : Int) ^ 63 - 1 else v - 1),
        none) := by
  induction h with
  | nil => intro columns; simp [parseColumnsLoop]
  | @cons tok v toks vals hv _ ih =>
    intro columns
    have ha := (atoi_ok_iff tok v).2 hv
    simp only [parseColumnsLoop, ha]
    rw [ih, wrapInt64_pred v hv.2.1 hv.2.2]
    simp

theorem parseColumnsLoop_cases (toks : List String) : ∀ columns : List Int,
    (∃ vals, List.Forall₂ ValidInt toks vals ∧ (parseColumnsLoop toks columns).2 = none) ∨
    ((∃ tok ∈ toks, ¬ ∃ n, ValidInt tok n) ∧
      ∃ e, parseColumnsLoop toks columns = (none, some e)) := by
  induction toks with
  | nil => intro columns; exact Or.inl ⟨[], List.Forall₂.nil, rfl⟩
  | cons tok toks ih =>
    intro columns
    cases ha : Atoi tok with
    | error e =>
      right
      refine ⟨⟨tok, by simp, ?_⟩, e, by simp [parseColumnsLoop, ha]⟩
      rintro ⟨n, hn⟩
      rw [(atoi_ok_iff tok n).2 hn] at ha
      simp at ha
    | ok v =>
      have hv := (atoi_ok_iff tok v).1 ha
      simp only [parseColumnsLoop, ha]
      rcases ih (columns ++ [wrapInt64 (v - 1)]) with ⟨vals, hf, hn⟩ | ⟨⟨t, ht, hbad⟩, e, he⟩
      · exact Or.inl ⟨v :: vals, List.Forall₂.cons hv hf, hn⟩
      · exact Or.inr ⟨⟨t, by simp [ht], hbad⟩, e, he⟩

theorem forall₂_validInt_mem {toks : List String} {vals : List Int}
    (h : List.Forall₂ ValidInt toks vals) : ∀ tok ∈ toks, ∃ n, ValidInt tok n := by
  induction h with
  | nil => intro tok ht; simp at ht
  | cons hv _ ih =>
    intro tok ht
    rcases List.mem_cons.1 ht with rfl | ht
    · exact ⟨_, hv⟩
    · exact ih tok ht

theorem splitLine_none (s : List Char) (h : '\n' ∉ s) : splitLine s = none := by
  induction s with
  | nil => rfl
  | cons c t ih =>
    have h1 : c ≠ '\n' := fun e => h (by simp [e])
    have h2 : '\n' ∉ t := fun e => h (by simp [e])
    simp [splitLine, h1, ih h2]

theorem splitLine_some (s : List Char) (h : '\n' ∈ s) :
    ∃ line rest, splitLine s = some (line, rest) ∧ IsLine line ∧ s = line ++ rest := by
  induction s with
  | nil => simp at h
  | cons c t ih =>
    by_cases hc : c = '\n'
    · subst hc
      exact ⟨['\n'], t, by simp [splitLine], ⟨[], by simp, rfl⟩, rfl⟩
    · have ht : '\n' ∈ t := by
        rcases List.mem_cons.1 h with e | e
        · exact absurd e.symm hc
        · exact e
      obtain ⟨line, rest, hs, ⟨body, hb, rfl⟩, rfl⟩ := ih ht
      refine ⟨c :: (body ++ ['\n']), rest, ?_, ⟨c :: body, ?_, rfl⟩, rfl⟩
      · show splitLine (c :: (body ++ ['\n'] ++ rest)) = _
        rw [splitLine, if_neg hc, hs]
      intro e
      rcases List.mem_cons.1 e with e | e
      · exact hc e.symm
      · exact hb e

theorem count_isLine (l : List Char) (h : IsLine l) : l.count '\n' = 1 := by
  obtain ⟨body, hb, rfl⟩ := h
  simp [List.count_append, List.count_eq_zero.2 hb]

theorem skipLoop_enough (k : Nat) : ∀ (src : List Char) (e : ReadError),
    k ≤ src.count '\n' →
    ∃ (lines : List (List Char)) (rest : List Char), lines.length = k ∧
      (∀ l ∈ lines, IsLine l) ∧ src = lines.flatten ++ rest ∧
      skipLoop k ⟨src, e⟩ = (none, ⟨rest, e⟩) := by
  induction k with
  | zero =>
    intro src e _
    exact ⟨[], src, rfl, by intro l hl; simp at hl, rfl, rfl⟩
  | succ k ih =>
    intro src e h
    have hmem : '\n' ∈ src := List.count_pos_iff.1 (by omega)
    obtain ⟨line, rest, hs, hline, rfl⟩ := splitLine_some src hmem
    have hc : k ≤ rest.count '\n' := by
      rw [List.count_append, count_isLine line hline] at h
      omega
    obtain ⟨lines, rest', hlen, hall, rfl, hskip⟩ := ih rest e hc
    refine ⟨line :: lines, rest', by simp [hlen], ?_, by simp, ?_⟩
    · intro l hl
      rcases List.mem_cons.1 hl with rfl | hl
      · exact hline
      · exact hall l hl
    · simp [skipLoop, Reader.ReadString, hs, hskip]

theorem skipLoop_empty_eof (k : Nat) :
    skipLoop k ⟨[], ReadError.EOF⟩ = (none, ⟨[], ReadError.EOF⟩) := by
  induction k with
  | zero => rfl
  | succ k ih => simp [skipLoop, Reader.ReadString, splitLine, ih]

theorem skipLoop_short_eof (k : Nat) : ∀ src : List Char, src.count '\n' < k →
    skipLoop k ⟨src, ReadError.EOF⟩ = (none, ⟨[], ReadError.EOF⟩) := by
  induction k with
  | zero => intro src h; omega
  | succ k ih =>
    intro src h
    by_cases hmem : '\n' ∈ src
    · obtain ⟨line, rest, hs, hline, rfl⟩ := splitLine_some src hmem
      have hc : rest.count '\n' < k := by
        rw [List.count_append, count_isLine line hline] at h
        omega
      simp [skipLoop, Reader.ReadString, hs, ih rest hc]
    · simp [skipLoop, Reader.ReadString, splitLine_none src hmem, skipLoop_empty_eof]

theorem skipLoop_short_other (k : Nat) : ∀ (src : List Char) (e : ReadError),
    e ≠ ReadError.EOF → src.count '\n' < k →
    skipLoop k ⟨src, e⟩ = (some e, ⟨[], e⟩) := by
  induction k with
  | zero => intro src e _ h; omega
  | succ k ih =>
    intro src e he h
    by_cases hmem : '\n' ∈ src
    · obtain ⟨line, rest, hs, hline, rfl⟩ := splitLine_some src hmem
      have hc : rest.count '\n' < k := by
        rw [List.count_append, count_isLine line hline] at h
        omega
      simp [skipLoop, Reader.ReadString, hs, ih rest e he hc]
    · simp [skipLoop, Reader.ReadString, splitLine_none src hmem, he]

/-- When `skipRecords` reports an error: the source fails with an error other
than end-of-stream before enough newlines were found. -/
theorem skipLoop_error_iff (k : Nat) (r : Reader) (e : ReadError) :
    (skipLoop k r).1 = some e ↔
      (e ≠ ReadError.EOF ∧ r.atEnd = e ∧ r.unread.count '\n' < k) := by
  obtain ⟨src, a⟩ := r
  by_cases hk : k ≤ src.count '\n'
  · obtain ⟨lines, rest, -, -, -, hskip⟩ := skipLoop_enough k src a hk
    rw [hskip]
    constructor
    · intro h; simp at h
    · rintro ⟨-, -, h⟩
      have h' : src.count '\n' < k := h
      omega
  · have hlt : src.count '\n' < k := by omega
    by_cases ha : a = ReadError.EOF
    · subst ha
      rw [skipLoop_short_eof k src hlt]
      constructor
      · intro h; simp at h
      · rintro ⟨h1, h2, -⟩; exact absurd h2.symm h1
    · rw [skipLoop_short_other k src a ha hlt]
      constructor
      · intro h
        have : a = e := by simpa using h
        subst this
        exact ⟨ha, rfl, hlt⟩
      · rintro ⟨-, h2, -⟩
        simp at h2
        simp [h2]

/-! ## Column projection -/

theorem keepColumns_single (v : String) : keepColumns [v] [0] = [extractAmount v] := by
  simp [keepColumns, keepColumnsLoop, contains]

theorem keepColumns_passthrough (record : List String) (selection : List Int) :
    keepColumns record selection =
      (record.enum.filter fun p => decide ((p.1 : Int) ∈ selection)).map fun p =>
        if FindStringSubmatch p.2 = [] then p.2 else extractAmount p.2 := by
  rw [keepColumns_eq, projectInRecordOrder]
  apply List.map_congr_left
  intro p _
  by_cases h : FindStringSubmatch p.2 = []
  · rw [if_pos h]; exact extractAmount_of_nil _ h
  · rw [if_neg h]

theorem keepColumns_map_extract (record : List String) (selection : List Int) :
    (keepColumns record selection).map extractAmount = keepColumns record selection := by
  rw [keepColumns_eq, projectInRecordOrder, List.map_map]
  apply List.map_congr_left
  intro p _
  exact extractAmount_fixed p.2

theorem not_mem_of_out_of_range (record : List String) (p : Int)
    (hp : p < 0 ∨ (record.length : Int) ≤ p) (i : Nat) (hi : i < record.length) :
    (i : Int) ≠ p := by
  intro h
  rcases hp with hp | hp <;> omega

/-- The extractor of the program does what the specification's words say, for
the suffix the pattern of the source has. -/
theorem extractAmount_extractsTo (v : String) : ExtractsTo v.data (extractAmount v).data := by
  rcases extractAmount_cases v with ⟨h, hall⟩ | ⟨pre, t, c, hx, ⟨hwf, r, rfl⟩, hleft, h⟩
  · left
    refine ⟨by rw [h], ?_⟩
    rintro ⟨pre, c, post, hv, hwf⟩
    exact hall pre (c ++ '\u00A0' :: '€' :: post) c (by rw [hv]; simp) ⟨hwf, post, rfl⟩
  · right
    have hd : (extractAmount v).data = c := by rw [h]
    rw [hd]
    refine ⟨hwf, pre, r, by rw [hx]; simp, ?_⟩
    intro pre' c' post' hv hwf'
    by_contra hlt
    exact hleft pre' (c' ++ '\u00A0' :: '€' :: post') c' (by rw [hv]; simp) (by omega)
      ⟨hwf', post', rfl⟩

/-- The words of the specification determine the result. -/
theorem extractsTo_unique (v r1 r2 : List Char) (h1 : ExtractsTo v r1) (h2 : ExtractsTo v r2) :
    r1 = r2 := by
  rcases h1 with ⟨e1, n1⟩ | ⟨w1, p1, q1, e1, m1⟩ <;> rcases h2 with ⟨e2, n2⟩ | ⟨w2, p2, q2, e2, m2⟩
  · rw [e1, e2]
  · exact absurd ⟨p2, r2, q2, e2, w2⟩ n1
  · exact absurd ⟨p1, r1, q1, e1, w1⟩ n2
  · have ha := m1 p2 r2 q2 e2 w2
    have hb := m2 p1 r1 q1 e1 w1
    have hlen : p1.length = p2.length := by omega
    have he : p1 ++ (r1 ++ '\u00A0' :: '€' :: q1) = p2 ++ (r2 ++ '\u00A0' :: '€' :: q2) := by
      have := e1.symm.trans e2
      simpa using this
    obtain ⟨-, ht⟩ := List.append_inj he hlen
    have u1 : r1 = (r1 ++ '\u00A0' :: '€' :: q1).takeWhile amountChar :=
      matchAt_unique ⟨w1, q1, rfl⟩
    have u2 : r2 = (r2 ++ '\u00A0' :: '€' :: q2).takeWhile amountChar :=
      matchAt_unique ⟨w2, q2, rfl⟩
    rw [u1, u2, ht]

theorem forall₂_extractsTo (l : List String) :
    List.Forall₂ (fun v r : String => ExtractsTo v.data r.data) l (l.map extractAmount) := by
  induction l with
  | nil => exact List.Forall₂.nil
  | cons v t ih => exact List.Forall₂.cons (extractAmount_extractsTo v) ih

theorem no_nbsp_append_space_suffix {s : List Char} (h : WellFormedAmount s) :
    '\u00A0' ∉ s ++ [' ', '€'] := by
  intro e
  rcases List.mem_append.1 e with e | e
  · exact wellFormed_no_nbsp h e
  · exact absurd e (by decide)

/-- C1: for every record and every column selection, keepColumns returns exactly
the list obtained by walking the record left to right, keeping the field at
index i if and only if i occurs in the selection, and applying the amount
extractor to each kept field: each output field is the result the extractor's
description determines for the kept field at the same place.  The kept fields
appear in record order (the output is a subsequence of the extracted record),
not in selection order: the selection [2, 0] on a three-field record yields
fields 0 and 2 in that order, and the selection [3, 1] yields field 1 before
field 3, each with its amount extracted. -/
theorem keepColumns_is_projection (record : List String) (selection : List Int) :
    keepColumns record selection = projectInRecordOrder record selection ∧
    List.Forall₂ (fun v r : String => ExtractsTo v.data r.data)
      ((record.enum.filter fun p => decide ((p.1 : Int) ∈ selection)).map Prod.snd)
      (keepColumns record selection) ∧
    (∀ v r : String, ExtractsTo v.data r.data → r = extractAmount v) ∧
    (keepColumns record selection).Sublist (record.map extractAmount) ∧
    keepColumns ["a", "b", "c"] [2, 0] = ["a", "c"] ∧
    keepColumns ["A", "4.500,00\u00A0€", "x", "ab -7,5\u00A0€ cd"] [3, 1] =
      ["4.500,00", "-7,5"] ∧
    keepColumns ["A", "4.500,00 €", "x"] [1, 2] = ["4.500,00 €", "x"] := by
  refine ⟨keepColumns_eq record selection, ?_, ?_, keepColumns_sublist record selection,
    by decide, by decide, by decide⟩
  · have h := forall₂_extractsTo
      ((record.enum.filter fun p => decide ((p.1 : Int) ∈ selection)).map Prod.snd)
    rw [List.map_map] at h
    rw [keepColumns_eq, projectInRecordOrder]
    exact h
  · intro v r h
    have := extractsTo_unique v.data r.data (extractAmount v).data h (extractAmount_extractsTo v)
    cases r with
    | mk rd =>
      cases hv : extractAmount v with
      | mk ed =>
        rw [hv] at this
        simp only at this
        rw [this]

theorem keepColumns_is_projection_witness :
    ExtractsTo "7\u00A0€".data "7".data ∧ ("7" : String) = extractAmount "7\u00A0€" :=
  have h : ExtractsTo "7\u00A0€".data "7".data :=
    Or.inr ⟨⟨[], ['7'], [], [], rfl, Or.inr rfl, ⟨by decide, by decide, by unfold Digits; decide⟩,
        by intro g hg; simp at hg, Or.inr rfl⟩, [], [], rfl,
      fun _ _ _ _ _ => Nat.zero_le _⟩
  ⟨h, (keepColumns_is_projection [] []).2.2.1 "7\u00A0€" "7" h⟩

/-- C2, the claim as stated fails: "1.234,56" and "-12,50" are well-formed
amounts, but the fields "1.234,56 €" and "-12,50 €", written with an ordinary
space, are returned unchanged, because the pattern of the source has the
no-break space U+00A0 before the euro sign. -/
theorem extractAmount_ordinary_space_unchanged :
    extractAmount ("1.234,56" ++ " €") = "1.234,56 €" ∧
    extractAmount ("1.234,56" ++ " €") ≠ "1.234,56" ∧
    extractAmount "-12,50 €" = "-12,50 €" ∧ extractAmount "-12,50 €" ≠ "-12,50" ∧
    keepColumns ["1.234,56 €"] [0] = ["1.234,56 €"] ∧
    WellFormedAmount "1.234,56".data := by
  refine ⟨by decide, by decide, by decide, by decide, by decide, ?_⟩
  exact ⟨[], ['1'], [['.', '2', '3', '4']], [',', '5', '6'], rfl, Or.inr rfl,
      ⟨by decide, by decide, by unfold Digits; decide⟩,
      by
        intro g hg
        simp only [List.mem_singleton] at hg
        subst hg
        exact ⟨['2', '3', '4'], rfl, rfl, by unfold Digits; decide⟩,
      Or.inl ⟨['5', '6'], rfl, by decide, by decide, by unfold Digits; decide⟩⟩

/-- C2, amended: for every well-formed amount s, the amount extractor inside
keepColumns maps the field s followed by the no-break space U+00A0 and the
euro sign to exactly s, so "1.234,56" and "-12,50" followed by U+00A0 and the
euro sign become "1.234,56" and "-12,50"; the field s followed by an ordinary
space and the euro sign is returned unchanged. -/
theorem extractAmount_wellFormed_suffix (s : String) (h : WellFormedAmount s.data) :
    extractAmount (s ++ "\u00A0€") = s ∧ keepColumns [s ++ "\u00A0€"] [0] = [s] ∧
    extractAmount (s ++ " €") = s ++ " €" ∧
    extractAmount "1.234,56\u00A0€" = "1.234,56" ∧
    extractAmount "-12,50\u00A0€" = "-12,50" := by
  have h1 := extractAmount_of_wellFormed s h
  refine ⟨h1, ?_, ?_, by decide, by decide⟩
  · rw [keepColumns_single, h1]
  · apply extractAmount_of_nil
    apply findFrom_of_no_nbsp
    have := no_nbsp_append_space_suffix h
    simpa using this

theorem extractAmount_wellFormed_suffix_witness :
    WellFormedAmount "1.234,56".data ∧
    (extractAmount ("1.234,56" ++ "\u00A0€") = "1.234,56" ∧
      keepColumns ["1.234,56" ++ "\u00A0€"] [0] = ["1.234,56"] ∧
      extractAmount ("1.234,56" ++ " €") = "1.234,56" ++ " €" ∧
      extractAmount "1.234,56\u00A0€" = "1.234,56" ∧
      extractAmount "-12,50\u00A0€" = "-12,50") :=
  have hw : WellFormedAmount "1.234,56".data :=
    ⟨[], ['1'], [['.', '2', '3', '4']], [',', '5', '6'], rfl, Or.inr rfl,
      ⟨by decide, by decide, by unfold Digits; decide⟩,
      by
        intro g hg
        simp only [List.mem_singleton] at hg
        subst hg
        exact ⟨['2', '3', '4'], rfl, rfl, by unfold Digits; decide⟩,
      Or.inl ⟨['5', '6'], rfl, by decide, by decide, by unfold Digits; decide⟩⟩
  ⟨hw, extractAmount_wellFormed_suffix "1.234,56" hw⟩

/-- C3, the claim as stated fails: the field "Betrag 7", U+00A0, "€ netto"
contains no ordinary space followed by the euro sign, yet the pattern matches
in it and keepColumns emits "7" instead of the field. -/
theorem extractAmount_changes_without_space :
    (¬ ∃ a b, "Betrag 7\u00A0€ netto".data = a ++ ' ' :: '€' :: b) ∧
    extractAmount "Betrag 7\u00A0€ netto" = "7" ∧
    extractAmount "Betrag 7\u00A0€ netto" ≠ "Betrag 7\u00A0€ netto" ∧
    keepColumns ["Betrag 7\u00A0€ netto"] [0] = ["7"] := by
  refine ⟨?_, by decide, by decide, by decide⟩
  rintro ⟨a, b, h⟩
  have h1 : ∀ (x : List Char) (a b : List Char), x = a ++ ' ' :: '€' :: b →
      ∃ t, t ∈ x.tails ∧ t.take 2 = [' ', '€'] := by
    intro x a b hx
    exact ⟨' ' :: '€' :: b, by rw [hx, List.mem_tails]; exact List.suffix_append _ _, rfl⟩
  obtain ⟨t, ht, ht2⟩ := h1 _ a b h
  have hall : ∀ t ∈ "Betrag 7\u00A0€ netto".data.tails, t.take 2 ≠ [' ', '€'] := by decide
  exact hall t ht ht2

/-- C3, amended: a retained field in which the amount pattern finds no match is
emitted unmodified by keepColumns; in particular every field that does not
contain the no-break space U+00A0 followed by the euro sign (such as "abc",
the bare number "12,50", or "12,50 €" written with an ordinary space) is
passed through unchanged. -/
theorem extractAmount_without_match (v : String) :
    (FindStringSubmatch v = [] → extractAmount v = v ∧ keepColumns [v] [0] = [v]) ∧
    ((¬ ∃ a b, v.data = a ++ '\u00A0' :: '€' :: b) →
      FindStringSubmatch v = [] ∧ extractAmount v = v ∧ keepColumns [v] [0] = [v]) ∧
    (∀ (record : List String) (selection : List Int),
      keepColumns record selection =
        (record.enum.filter fun p => decide ((p.1 : Int) ∈ selection)).map fun p =>
          if FindStringSubmatch p.2 = [] then p.2 else extractAmount p.2) ∧
    extractAmount "abc" = "abc" ∧ extractAmount "12,50" = "12,50" ∧
    extractAmount "12,50 €" = "12,50 €" := by
  refine ⟨?_, ?_, keepColumns_passthrough, by decide, by decide, by decide⟩
  · intro h
    have h1 := extractAmount_of_nil v h
    exact ⟨h1, by rw [keepColumns_single, h1]⟩
  · intro h
    have h0 : FindStringSubmatch v = [] := findFrom_of_no_suffix v.data h
    have h1 := extractAmount_of_nil v h0
    exact ⟨h0, h1, by rw [keepColumns_single, h1]⟩

theorem extractAmount_without_match_witness :
    (FindStringSubmatch "7\u00A0EUR" = [] ∧
      (extractAmount "7\u00A0EUR" = "7\u00A0EUR" ∧
        keepColumns ["7\u00A0EUR"] [0] = ["7\u00A0EUR"])) ∧
    ((¬ ∃ a b, "12,50 €".data = a ++ '\u00A0' :: '€' :: b) ∧
      (FindStringSubmatch "12,50 €" = [] ∧ extractAmount "12,50 €" = "12,50 €" ∧
        keepColumns ["12,50 €"] [0] = ["12,50 €"])) :=
  have hn : ¬ ∃ a b, "12,50 €".data = a ++ '\u00A0' :: '€' :: b := by
    rintro ⟨a, b, h⟩
    have hmem : '\u00A0' ∈ "12,50 €".data := by rw [h]; simp
    exact absurd hmem (by decide)
  ⟨⟨by decide, (extractAmount_without_match "7\u00A0EUR").1 (by decide)⟩,
    ⟨hn, (extractAmount_without_match "12,50 €").2.1 hn⟩⟩

/-! ## Column list parsing -/

theorem validInt_of_atoi {tok : String} {n : Int} (h : Atoi tok = .ok n) : ValidInt tok n :=
  (atoi_ok_iff tok n).1 h

/-- C4, the claim as stated fails: the token -9223372036854775808 is a valid
decimal integer of the int type, parseColumnsToKeep succeeds on it, but the
entry returned is 9223372036854775807 and not the value minus 1, because the
subtraction wraps around. -/
theorem parseColumnsToKeep_min_int_wraps :
    List.Forall₂ ValidInt (Split "-9223372036854775808" ',') [-9223372036854775808] ∧
    parseColumnsToKeep "-9223372036854775808" = (some [9223372036854775807], none) ∧
    parseColumnsToKeep "-9223372036854775808" ≠
      (some ([-9223372036854775808].map fun v => v - 1), none) := by
  refine ⟨?_, by decide, by decide⟩
  have h : Split "-9223372036854775808" ',' = ["-9223372036854775808"] := by decide
  rw [h]
  exact List.Forall₂.cons (validInt_of_atoi (by rfl)) List.Forall₂.nil

/-- C4, amended: for every configuration string whose comma-separated tokens
are all valid integers of the int type, parseColumnsToKeep succeeds and returns
one entry per token, in token order; the k-th entry is the k-th token's value
minus 1, except that the least int -9223372036854775808 wraps around to
9223372036854775807.  Duplicates and arbitrary order are preserved: "2,5,6,8"
gives [1,4,5,7] and "5,2,5" gives [4,1,4]. -/
theorem parseColumnsToKeep_valid (input : String) (vals : List Int)
    (h : List.Forall₂ ValidInt (Split input ',') vals) :
    parseColumnsToKeep input =
      (some (vals.map fun v => if v = -(2 : Int) ^ 63 then (2 : Int) ^ 63 - 1 else v - 1),
        none) ∧
    parseColumnsToKeep "2,5,6,8" = (some [1, 4, 5, 7], none) ∧
    parseColumnsToKeep "5,2,5" = (some [4, 1, 4], none) := by
  refine ⟨?_, by decide, by decide⟩
  rw [parseColumnsToKeep, parseColumnsLoop_valid _ _ h]
  simp

theorem parseColumnsToKeep_valid_witness :
    List.Forall₂ ValidInt (Split "5,2,5" ',') [5, 2, 5] ∧
    (parseColumnsToKeep "5,2,5" =
      (some ([5, 2, 5].map fun v => if v = -(2 : Int) ^ 63 then (2 : Int) ^ 63 - 1 else v - 1),
        none) ∧
    parseColumnsToKeep "2,5,6,8" = (some [1, 4, 5, 7], none) ∧
    parseColumnsToKeep "5,2,5" = (some [4, 1, 4], none)) :=
  have h : List.Forall₂ ValidInt (Split "5,2,5" ',') [5, 2, 5] := by
    have hs : Split "5,2,5" ',' = ["5", "2", "5"] := by decide
    rw [hs]
    exact List.Forall₂.cons (validInt_of_atoi (by rfl))
      (List.Forall₂.cons (validInt_of_atoi (by rfl))
        (List.Forall₂.cons (validInt_of_atoi (by rfl)) List.Forall₂.nil))
  ⟨h, parseColumnsToKeep_valid "5,2,5" [5, 2, 5] h⟩

/-- C5: parseColumnsToKeep returns an error if and only if at least one token
obtained by splitting the configuration string on the comma is not a valid
integer (an optional sign and one or more ASCII digits, with a value the int
type can hold); this includes the empty string, a trailing comma and tokens
with spaces, and also a number too large for int.  When it returns an error it
returns the nil slice, never a list of the columns parsed so far. -/
theorem parseColumnsToKeep_error_iff (input : String) :
    ((parseColumnsToKeep input).2 ≠ none ↔
      ∃ tok ∈ Split input ',', ¬ ∃ n, ValidInt tok n) ∧
    ((parseColumnsToKeep input).2 ≠ none → (parseColumnsToKeep input).1 = none) ∧
    (parseColumnsToKeep "").2 ≠ none ∧ (parseColumnsToKeep "2,5,").2 ≠ none ∧
    (parseColumnsToKeep "2, 5").2 ≠ none ∧
    (parseColumnsToKeep "9223372036854775808").2 ≠ none := by
  refine ⟨?_, ?_, by decide, by decide, by decide, by decide⟩
  · rcases parseColumnsLoop_cases (Split input ',') [] with ⟨vals, hf, hn⟩ | ⟨hbad, e, he⟩
    · constructor
      · intro h; exact absurd hn h
      · rintro ⟨tok, ht, hno⟩
        exact absurd (forall₂_validInt_mem hf tok ht) hno
    · constructor
      · intro _; exact hbad
      · intro _; rw [parseColumnsToKeep, he]; simp
  · rcases parseColumnsLoop_cases (Split input ',') [] with ⟨vals, hf, hn⟩ | ⟨hbad, e, he⟩
    · intro h; exact absurd hn h
    · intro _; rw [parseColumnsToKeep, he]

theorem parseColumnsToKeep_error_iff_witness :
    (parseColumnsToKeep "2,x").2 ≠ none ∧ (parseColumnsToKeep "2,x").1 = none :=
  ⟨by decide, (parseColumnsToKeep_error_iff "2,x").2.1 (by decide)⟩

/-! ## Line skipping -/

/-- C6: for every source text and every non-negative N such that the source
contains at least N newline characters, skipRecords returns no error and leaves
the reader exactly after the N-th newline: the source is N newline-terminated
lines followed by the unread remainder, nothing more and nothing less. -/
theorem skipRecords_consumes_lines (src : List Char) (atEnd : ReadError) (N : Int)
    (h0 : 0 ≤ N) (h : N ≤ (src.count '\n' : Int)) :
    ∃ (lines : List (List Char)) (rest : List Char),
      (lines.length : Int) = N ∧ (∀ l ∈ lines, IsLine l) ∧ src = lines.flatten ++ rest ∧
      skipRecords ⟨src, atEnd⟩ N = (none, ⟨rest, atEnd⟩) := by
  have hk : N.toNat ≤ src.count '\n' := by omega
  obtain ⟨lines, rest, hlen, hall, hsrc, hskip⟩ := skipLoop_enough N.toNat src atEnd hk
  exact ⟨lines, rest, by omega, hall, hsrc, hskip⟩

theorem skipRecords_consumes_lines_witness :
    (0 : Int) ≤ 2 ∧ (2 : Int) ≤ (("a\nb\nc".data).count '\n' : Int) ∧
    ∃ (lines : List (List Char)) (rest : List Char),
      (lines.length : Int) = 2 ∧ (∀ l ∈ lines, IsLine l) ∧
      "a\nb\nc".data = lines.flatten ++ rest ∧
      skipRecords ⟨"a\nb\nc".data, ReadError.EOF⟩ 2 = (none, ⟨rest, ReadError.EOF⟩) :=
  ⟨by decide, by decide,
    skipRecords_consumes_lines "a\nb\nc".data ReadError.EOF 2 (by decide) (by decide)⟩

/-- C7: for every source with fewer lines than the skip count N (fewer than N
newlines, the source ending in end-of-stream), skipRecords returns no error and
leaves the source fully consumed, so the read loop that follows produces zero
output records and the run ends with status 0; skipRecords returns an error
only for a read error other than end-of-stream, namely exactly when the source
fails with such an error before N newlines were found. -/
theorem skipRecords_short_source :
    (∀ (src : List Char) (N : Int), (src.count '\n' : Int) < N →
      skipRecords ⟨src, ReadError.EOF⟩ N = (none, ⟨[], ReadError.EOF⟩)) ∧
    (∀ (csvResults : Reader → List ReadResult) (columnIndices : List Int)
        (src : List Char) (N : Int),
      csvResults ⟨[], ReadError.EOF⟩ = [] → (src.count '\n' : Int) < N →
        processInput csvResults columnIndices N ⟨src, ReadError.EOF⟩ = (0, [])) ∧
    (∀ (r : Reader) (N : Int) (e : ReadError),
      (skipRecords r N).1 = some e ↔
        (e ≠ ReadError.EOF ∧ r.atEnd = e ∧ (r.unread.count '\n' : Int) < N)) := by
  refine ⟨?_, ?_, ?_⟩
  · intro src N h
    exact skipLoop_short_eof N.toNat src (by omega)
  · intro csvResults columnIndices src N hcsv h
    have hs : skipRecords ⟨src, ReadError.EOF⟩ N = (none, ⟨[], ReadError.EOF⟩) :=
      skipLoop_short_eof N.toNat src (by omega)
    simp [processInput, hs, hcsv, readLoop]
  · intro r N e
    rw [skipRecords, skipLoop_error_iff]
    constructor
    · rintro ⟨h1, h2, h3⟩; exact ⟨h1, h2, by omega⟩
    · rintro ⟨h1, h2, h3⟩; exact ⟨h1, h2, by omega⟩

theorem skipRecords_short_source_witness :
    ((("a\nb".data).count '\n' : Int) < 4 ∧
      skipRecords ⟨"a\nb".data, ReadError.EOF⟩ 4 = (none, ⟨[], ReadError.EOF⟩)) ∧
    (unquotedCsvResults ⟨[], ReadError.EOF⟩ = [] ∧
      processInput unquotedCsvResults [1, 4] 4 ⟨"a\nb".data, ReadError.EOF⟩ = (0, [])) :=
  ⟨⟨by decide, skipRecords_short_source.1 "a\nb".data 4 (by decide)⟩,
    ⟨by decide,
      skipRecords_short_source.2.1 unquotedCsvResults [1, 4] "a\nb".data 4 (by decide)
        (by decide)⟩⟩

/-! ## Algebraic properties of the projection -/

/-- C8: for every record and every two column selections that are permutations
of each other, keepColumns returns identical output; the selections parsed from
"2,5" and "5,2" give the same projected record for every input record. -/
theorem keepColumns_perm (record : List String) (s1 s2 : List Int) (h : s1.Perm s2) :
    keepColumns record s1 = keepColumns record s2 ∧
    ∃ c1 c2, parseColumnsToKeep "2,5" = (some c1, none) ∧
      parseColumnsToKeep "5,2" = (some c2, none) ∧
      keepColumns record c1 = keepColumns record c2 := by
  refine ⟨keepColumns_congr record s1 s2 (fun i _ => h.mem_iff), [1, 4], [4, 1], by decide,
    by decide, keepColumns_congr record _ _ (fun i _ => ?_)⟩
  simp only [List.mem_cons, List.mem_singleton, List.not_mem_nil, or_false]
  exact or_comm

theorem keepColumns_perm_witness :
    List.Perm [1, 4, 5] [5, 1, 4] ∧
    (keepColumns ["A", "1", "B", "2", "3", "4.500,00 €"] [1, 4, 5] =
        keepColumns ["A", "1", "B", "2", "3", "4.500,00 €"] [5, 1, 4] ∧
      ∃ c1 c2, parseColumnsToKeep "2,5" = (some c1, none) ∧
        parseColumnsToKeep "5,2" = (some c2, none) ∧
        keepColumns ["A", "1", "B", "2", "3", "4.500,00 €"] c1 =
          keepColumns ["A", "1", "B", "2", "3", "4.500,00 €"] c2) :=
  ⟨by decide,
    keepColumns_perm ["A", "1", "B", "2", "3", "4.500,00 €"] [1, 4, 5] [5, 1, 4] (by decide)⟩

/-- C9: amount extraction is idempotent: for every field v, applying the
extractor to its own result on v yields that result again; equivalently,
projecting an already-projected record with a selection that retains all of its
positions returns it unchanged.  For the field "y 1", U+00A0, "€ z" the result
is "1", and extracting again leaves "1". -/
theorem extractAmount_idempotent :
    (∀ v : String, extractAmount (extractAmount v) = extractAmount v) ∧
    (∀ (record : List String) (selection all : List Int),
      (∀ i : Nat, i < (keepColumns record selection).length → (i : Int) ∈ all) →
        keepColumns (keepColumns record selection) all = keepColumns record selection) ∧
    extractAmount "y 1\u00A0€ z" = "1" ∧ extractAmount (extractAmount "y 1\u00A0€ z") = "1" := by
  refine ⟨extractAmount_fixed, ?_, by decide, by decide⟩
  intro record selection all h
  rw [keepColumns_all _ all h, keepColumns_map_extract]

theorem extractAmount_idempotent_witness :
    (∀ i : Nat, i < (keepColumns ["x", "9,99\u00A0€", "y 1\u00A0€ z"] [1, 2]).length →
      (i : Int) ∈ [0, 1]) ∧
    keepColumns (keepColumns ["x", "9,99\u00A0€", "y 1\u00A0€ z"] [1, 2]) [0, 1] =
      keepColumns ["x", "9,99\u00A0€", "y 1\u00A0€ z"] [1, 2] ∧
    keepColumns ["x", "9,99\u00A0€", "y 1\u00A0€ z"] [1, 2] = ["9,99", "1"] :=
  have h : ∀ i : Nat, i < (keepColumns ["x", "9,99\u00A0€", "y 1\u00A0€ z"] [1, 2]).length →
      (i : Int) ∈ [0, 1] := by
    intro i hi
    have h2 : (keepColumns ["x", "9,99\u00A0€", "y 1\u00A0€ z"] [1, 2]).length = 2 := by decide
    rw [h2] at hi
    have : i = 0 ∨ i = 1 := by omega
    rcases this with rfl | rfl <;> simp
  ⟨h, extractAmount_idempotent.2.1 ["x", "9,99\u00A0€", "y 1\u00A0€ z"] [1, 2] [0, 1] h,
    by decide⟩

/-- C10: selection positions outside the record never matter.  keepColumns is a
total function of the record and the selection (it only ranges over the record,
so there is no out-of-range access and no error); its output has at most as
many fields as the record and is a subsequence of the extracted record, so
nothing is padded; adding to or removing from the selection a position that is
negative or at least the record length leaves the output unchanged; and a
selection of only such positions yields the empty record. -/
theorem keepColumns_out_of_range (record : List String) :
    (∀ selection : List Int, (keepColumns record selection).length ≤ record.length) ∧
    (∀ selection : List Int,
      (keepColumns record selection).Sublist (record.map extractAmount)) ∧
    (∀ (a b : List Int) (p : Int), (p < 0 ∨ (record.length : Int) ≤ p) →
      keepColumns record (a ++ p :: b) = keepColumns record (a ++ b)) ∧
    (∀ (selection : List Int) (p : Int), (p < 0 ∨ (record.length : Int) ≤ p) →
      keepColumns record (selection.filter fun q => decide (q ≠ p)) =
        keepColumns record selection) ∧
    (∀ selection : List Int, (∀ p ∈ selection, p < 0 ∨ (record.length : Int) ≤ p) →
      keepColumns record selection = []) := by
  refine ⟨?_, keepColumns_sublist record, ?_, ?_, ?_⟩
  · intro selection
    have := (keepColumns_sublist record selection).length_le
    simpa using this
  · intro a b p hp
    apply keepColumns_congr
    intro i hi
    have hne := not_mem_of_out_of_range record p hp i hi
    simp [hne]
  · intro selection p hp
    apply keepColumns_congr
    intro i hi
    have hne := not_mem_of_out_of_range record p hp i hi
    simp [hne]
  · intro selection hall
    have h1 : keepColumns record selection = keepColumns record [] := by
      apply keepColumns_congr
      intro i hi
      constructor
      · intro hmem
        exact absurd rfl (not_mem_of_out_of_range record _ (hall _ hmem) i hi)
      · intro hmem; simp at hmem
    rw [h1, keepColumns_eq, projectInRecordOrder]
    simp

theorem keepColumns_out_of_range_witness :
    (((7 : Int) < 0 ∨ ((["a", "b 5 €", "c"] : List String).length : Int) ≤ 7) ∧
      keepColumns ["a", "b 5 €", "c"] ([1] ++ 7 :: [2]) =
        keepColumns ["a", "b 5 €", "c"] ([1] ++ [2])) ∧
    (((-1 : Int) < 0 ∨ ((["a", "b 5 €", "c"] : List String).length : Int) ≤ -1) ∧
      keepColumns ["a", "b 5 €", "c"] ([-1, 1, -1].filter fun q => decide (q ≠ -1)) =
        keepColumns ["a", "b 5 €", "c"] [-1, 1, -1]) ∧
    ((∀ p ∈ ([-1, 3, 100] : List Int),
        p < 0 ∨ ((["a", "b 5 €", "c"] : List String).length : Int) ≤ p) ∧
      keepColumns ["a", "b 5 €", "c"] [-1, 3, 100] = []) :=
  ⟨⟨by decide, (keepColumns_out_of_range ["a", "b 5 €", "c"]).2.2.1 [1] [2] 7 (by decide)⟩,
    ⟨by decide, (keepColumns_out_of_range ["a", "b 5 €", "c"]).2.2.2.1 [-1, 1, -1] (-1)
      (by decide)⟩,
    ⟨by decide, (keepColumns_out_of_range ["a", "b 5 €", "c"]).2.2.2.2 [-1, 3, 100]
      (by decide)⟩⟩

/-! ## More on the leftmost search -/

/-- The match at the leftmost matching position is the one the search returns. -/
theorem findFrom_of_leftmost (pre t c : List Char) (hm : MatchAt t c)
    (hleft : ∀ pre' t' c', pre ++ t = pre' ++ t' → pre'.length < pre.length → ¬ MatchAt t' c') :
    findFrom (pre ++ t) = [String.mk (c ++ ['\u00A0', '€']), String.mk c] := by
  rcases findFrom_cases (pre ++ t) with ⟨-, hall⟩ | ⟨pre2, t2, c2, hx, hm2, hleft2, hf⟩
  · exact absurd hm (hall pre t c rfl)
  · have h1 : ¬ pre2.length < pre.length := fun hlt => hleft pre2 t2 c2 hx hlt hm2
    have h2 : ¬ pre.length < pre2.length := fun hlt => hleft2 pre t c rfl hlt hm
    have hlen : pre.length = pre2.length := by omega
    obtain ⟨hp, ht⟩ := List.append_inj hx hlen
    subst hp; subst ht
    rw [hf, matchAt_unique hm, matchAt_unique hm2]

theorem digits_append {a b : List Char} (ha : Digits a) (hb : Digits b) : Digits (a ++ b) := by
  intro c hc
  rcases List.mem_append.1 hc with h | h
  · exact ha c h
  · exact hb c h

theorem digits_of_append_left {a b : List Char} (h : Digits (a ++ b)) : Digits a :=
  fun c hc => h c (List.mem_append_left _ hc)

theorem digits_of_append_right {a b : List Char} (h : Digits (a ++ b)) : Digits b :=
  fun c hc => h c (List.mem_append_right _ hc)

/-- A well-formed amount ends in a digit. -/
theorem wellFormed_ends_in_digit {c : List Char} (h : WellFormedAmount c) :
    ∃ c0 d, d.isDigit = true ∧ c = c0 ++ [d] := by
  have hlast : ∀ l : List Char, Digits l → l ≠ [] → ∃ l0 d, d.isDigit = true ∧ l = l0 ++ [d] := by
    intro l hl hne
    rcases List.eq_nil_or_concat l with h0 | ⟨l0, d, rfl⟩
    · exact absurd h0 hne
    · exact ⟨l0, d, hl d (by simp), by simp⟩
  obtain ⟨sign, ds, gs, frac, rfl, -, ⟨h1, -, hds⟩, hgs, hf⟩ := h
  rcases hf with ⟨d, rfl, hd1, -, hdd⟩ | rfl
  · obtain ⟨l0, x, hx, rfl⟩ := hlast d hdd (by intro e; rw [e] at hd1; simp at hd1)
    exact ⟨sign ++ (ds ++ (gs.flatten ++ ',' :: l0)), x, hx, by simp⟩
  · rcases List.eq_nil_or_concat gs with h0 | ⟨gs0, g, rfl⟩
    · subst h0
      obtain ⟨l0, x, hx, rfl⟩ := hlast ds hds (by intro e; rw [e] at h1; simp at h1)
      exact ⟨sign ++ l0, x, hx, by simp⟩
    · obtain ⟨d, rfl, hd3, hdd⟩ := hgs g (by simp)
      obtain ⟨l0, x, hx, rfl⟩ := hlast d hdd (by intro e; rw [e] at hd3; simp at hd3)
      exact ⟨sign ++ (ds ++ (gs0.flatten ++ '.' :: l0)), x, hx, by simp⟩

/-- A single digit is a well-formed amount. -/
theorem wellFormed_single_digit (d : Char) (h : d.isDigit = true) : WellFormedAmount [d] :=
  ⟨[], [d], [], [], rfl, Or.inr rfl,
    ⟨by simp, by simp, by intro c hc; simp at hc; rw [hc]; exact h⟩,
    by intro g hg; simp at hg, Or.inr rfl⟩

theorem byteLen_append (a b : List Char) : byteLen (a ++ b) = byteLen a + byteLen b := by
  simp [byteLen]

theorem extractAmount_ne_iff_match (v : String) :
    extractAmount v ≠ v ↔ ∃ pre t c, v.data = pre ++ t ∧ MatchAt t c := by
  rcases extractAmount_cases v with ⟨h, hall⟩ | ⟨pre, t, c, hx, hm, -, h⟩
  · constructor
    · intro hne; exact absurd h hne
    · rintro ⟨pre, t, c, hx, hm⟩; exact absurd hm (hall pre t c hx)
  · constructor
    · intro _; exact ⟨pre, t, c, hx, hm⟩
    · intro _ he
      rw [h] at he
      obtain ⟨hwf, r, rfl⟩ := hm
      have hmem : '\u00A0' ∈ v.data := by rw [hx]; simp
      rw [← he] at hmem
      exact wellFormed_no_nbsp hwf hmem

theorem not_digit_minus : ¬ ('-'.isDigit = true) := by decide

/-- What follows the first digit group of a well-formed amount does not start
with a digit. -/
theorem wellFormed_split {c : List Char} (h : WellFormedAmount c) :
    ∃ sign ds tail, c = sign ++ (ds ++ tail) ∧ (sign = ['-'] ∨ sign = []) ∧
      1 ≤ ds.length ∧ ds.length ≤ 3 ∧ Digits ds ∧
      (tail = [] ∨ ∃ x rest, tail = x :: rest ∧ x.isDigit = false) := by
  obtain ⟨sign, ds, gs, frac, rfl, hs, ⟨h1, h3, hds⟩, hgs, hf⟩ := h
  refine ⟨sign, ds, gs.flatten ++ frac, rfl, hs, h1, h3, hds, ?_⟩
  cases gs with
  | nil =>
    rcases hf with ⟨d, rfl, -⟩ | rfl
    · exact Or.inr ⟨',', d, by simp, by decide⟩
    · exact Or.inl (by simp)
  | cons g gs =>
    obtain ⟨d, rfl, -⟩ := hgs g (by simp)
    exact Or.inr ⟨'.', d ++ (gs.flatten ++ frac), by simp, by decide⟩

/-- An optional minus sign followed by four or more digits is not the start of
a well-formed amount. -/
theorem not_wellFormed_long (S Dg X : List Char) (hS : S = ['-'] ∨ S = [])
    (hD : Digits Dg) (hk : 4 ≤ Dg.length) : ¬ WellFormedAmount (S ++ (Dg ++ X)) := by
  intro h
  obtain ⟨sign, ds, tail, hc, hs, h1, h3, hds, htail⟩ := wellFormed_split h
  have hDne : Dg ≠ [] := by intro e; rw [e] at hk; simp at hk
  have hdsne : ds ≠ [] := by intro e; rw [e] at h1; simp at h1
  obtain ⟨x, Dg', rfl⟩ := List.exists_cons_of_ne_nil hDne
  obtain ⟨y, ds', rfl⟩ := List.exists_cons_of_ne_nil hdsne
  have hx : x.isDigit = true := hD x (by simp)
  have hy : y.isDigit = true := hds y (by simp)
  have hbody : y :: ds' ++ tail = x :: Dg' ++ X := by
    rcases hS with rfl | rfl <;> rcases hs with rfl | rfl
    · simpa using hc.symm
    · simp only [List.singleton_append, List.nil_append, List.cons_append, List.cons.injEq] at hc
      rw [← hc.1] at hy
      exact absurd hy not_digit_minus
    · simp only [List.singleton_append, List.nil_append, List.cons_append, List.cons.injEq] at hc
      rw [hc.1] at hx
      exact absurd hx not_digit_minus
    · simpa using hc.symm
  rcases List.append_eq_append_iff.1 hbody with ⟨a, ha, ht⟩ | ⟨a, ha, hX⟩
  · have hlen := congrArg List.length ha
    simp only [List.length_cons, List.length_append] at hlen h3 hk
    have hane : a ≠ [] := by intro e; rw [e] at hlen; simp at hlen; omega
    obtain ⟨z, a', rfl⟩ := List.exists_cons_of_ne_nil hane
    have hz : z.isDigit = true := hD z (by rw [ha]; simp)
    rcases htail with e | ⟨w, rest, e, hw⟩
    · rw [e] at ht; simp at ht
    · rw [e] at ht
      simp only [List.cons_append, List.cons.injEq] at ht
      rw [ht.1] at hw
      rw [hw] at hz
      exact absurd hz (by decide)
  · have := congrArg List.length ha
    simp only [List.length_cons, List.length_append] at this h3 hk
    omega

theorem decimalPart_amountChar {F : List Char} (hF : DecimalPart F ∨ F = []) :
    ∀ a ∈ F, amountChar a = true := by
  rcases hF with ⟨d, rfl, -, -, hd⟩ | rfl
  · intro a ha
    rcases List.mem_cons.1 ha with rfl | ha
    · decide
    · exact digits_amountChar hd a ha
  · intro a ha; simp at ha

/-- The pattern does not match where four or more digits in a row begin. -/
theorem not_matchAt_long (S Dg F r c : List Char) (hS : S = ['-'] ∨ S = [])
    (hD : Digits Dg) (hk : 4 ≤ Dg.length) (hF : DecimalPart F ∨ F = []) :
    ¬ MatchAt (S ++ (Dg ++ (F ++ '\u00A0' :: '€' :: r))) c := by
  intro hm
  have hc := matchAt_unique hm
  have hall : ∀ a ∈ S ++ (Dg ++ F), amountChar a = true := by
    intro a ha
    rcases List.mem_append.1 ha with h | h
    · rcases hS with rfl | rfl
      · simp at h; rw [h]; decide
      · simp at h
    · rcases List.mem_append.1 h with h | h
      · exact digits_amountChar hD a h
      · exact decimalPart_amountChar hF a h
  have ht : S ++ (Dg ++ (F ++ '\u00A0' :: '€' :: r)) = (S ++ (Dg ++ F)) ++ '\u00A0' :: ('€' :: r) := by
    simp
  rw [ht, takeWhile_amountChar _ _ hall] at hc
  have hwf := hm.1
  rw [hc] at hwf
  exact not_wellFormed_long S Dg F hS hD hk hwf

/-- The search result on an optional minus sign, four or more digits, an
optional decimal part and the currency suffix: the last three digits and the
decimal part. -/
theorem findFrom_long (S D F : List Char) (hS : S = ['-'] ∨ S = [])
    (hD : Digits D) (hk : 4 ≤ D.length) (hF : DecimalPart F ∨ F = []) :
    findFrom (S ++ (D ++ (F ++ ['\u00A0', '€']))) =
      [String.mk (D.drop (D.length - 3) ++ F ++ ['\u00A0', '€']),
        String.mk (D.drop (D.length - 3) ++ F)] := by
  have hsplit : D = D.take (D.length - 3) ++ D.drop (D.length - 3) :=
    (List.take_append_drop _ _).symm
  have hD1 : Digits (D.take (D.length - 3)) := fun a ha => hD a (List.mem_of_mem_take ha)
  have hD3 : Digits (D.drop (D.length - 3)) := fun a ha => hD a (List.mem_of_mem_drop ha)
  have hl3 : (D.drop (D.length - 3)).length = 3 := by simp; omega
  have hl1 : (D.take (D.length - 3)).length = D.length - 3 := by simp
  generalize D.take (D.length - 3) = D1 at hsplit hD1 hl1
  generalize D.drop (D.length - 3) = D3 at hsplit hD3 hl3
  have hm : MatchAt (D3 ++ (F ++ ['\u00A0', '€'])) (D3 ++ F) :=
    ⟨⟨[], D3, [], F, by simp, Or.inr rfl, ⟨by omega, by omega, hD3⟩,
      by intro g hg; simp at hg, hF⟩, [], by simp⟩
  have hv : S ++ (D ++ (F ++ ['\u00A0', '€'])) = (S ++ D1) ++ (D3 ++ (F ++ ['\u00A0', '€'])) := by
    rw [hsplit]; simp
  rw [hv, findFrom_of_leftmost (S ++ D1) _ (D3 ++ F) hm]
  · intro pre' t' c' hx hlt
    rcases List.append_eq_append_iff.1 hx with ⟨a, ha, ht⟩ | ⟨a, ha, ht⟩
    · have := congrArg List.length ha
      simp only [List.length_append] at this hlt
      omega
    · have hane : a ≠ [] := by
        intro e
        rw [e] at ha
        have := congrArg List.length ha
        simp only [List.length_append, List.length_nil] at this hlt
        omega
      rw [ht]
      rcases hS with rfl | rfl
      · cases pre' with
        | nil =>
          simp only [List.nil_append] at ha
          rw [← ha]
          have e : ['-'] ++ D1 ++ (D3 ++ (F ++ ['\u00A0', '€'])) =
              ['-'] ++ ((D1 ++ D3) ++ (F ++ '\u00A0' :: '€' :: [])) := by simp
          rw [e]
          exact not_matchAt_long ['-'] (D1 ++ D3) F [] c' (Or.inl rfl) (digits_append hD1 hD3)
            (by simp only [List.length_append]; omega) hF
        | cons b p =>
          simp only [List.singleton_append, List.cons_append, List.cons.injEq] at ha
          have ha2 : D1 = p ++ a := by simpa using ha.2
          have hda : Digits a := by
            have := hD1; rw [ha2] at this; exact digits_of_append_right this
          have e : a ++ (D3 ++ (F ++ ['\u00A0', '€'])) =
              [] ++ ((a ++ D3) ++ (F ++ '\u00A0' :: '€' :: [])) := by simp
          rw [e]
          have hal : 0 < a.length := List.length_pos.2 hane
          exact not_matchAt_long [] (a ++ D3) F [] c' (Or.inr rfl) (digits_append hda hD3)
            (by simp only [List.length_append]; omega) hF
      · simp only [List.nil_append] at ha
        have hda : Digits a := by
          have := hD1; rw [ha] at this; exact digits_of_append_right this
        have e : a ++ (D3 ++ (F ++ ['\u00A0', '€'])) =
            [] ++ ((a ++ D3) ++ (F ++ '\u00A0' :: '€' :: [])) := by simp
        rw [e]
        have hal : 0 < a.length := List.length_pos.2 hane
        exact not_matchAt_long [] (a ++ D3) F [] c' (Or.inr rfl) (digits_append hda hD3)
          (by simp only [List.length_append]; omega) hF

/-! ## Properties of the CSV reader -/

theorem splitLine_append_newline (line rest : List Char) (h : '\n' ∉ line) :
    splitLine (line ++ '\n' :: rest) = some (line ++ ['\n'], rest) := by
  induction line with
  | nil => simp [splitLine]
  | cons c t ih =>
    have h1 : c ≠ '\n' := fun e => h (by simp [e])
    have h2 : '\n' ∉ t := fun e => h (by simp [e])
    show splitLine (c :: (t ++ '\n' :: rest)) = _
    rw [splitLine, if_neg h1, ih h2]
    rfl

theorem cutAt_spec (sep : Char) (l : List Char) :
    (cutAt sep l = none ∧ sep ∉ l) ∨
    ∃ a b, cutAt sep l = some (a, b) ∧ l = a ++ sep :: b ∧ sep ∉ a := by
  induction l with
  | nil => left; simp [cutAt]
  | cons c t ih =>
    by_cases hc : c = sep
    · right; exact ⟨[], t, by simp [cutAt, hc], by simp [hc], by simp⟩
    · rcases ih with ⟨h1, h2⟩ | ⟨a, b, h1, h2, h3⟩
      · left
        refine ⟨by simp [cutAt, hc, h1], ?_⟩
        intro e
        rcases List.mem_cons.1 e with e | e
        · exact hc e.symm
        · exact h2 e
      · right
        refine ⟨c :: a, b, by simp [cutAt, hc, h1], by simp [h2], ?_⟩
        intro e
        rcases List.mem_cons.1 e with e | e
        · exact hc e.symm
        · exact h3 e

theorem cutAt_of_not_mem (sep : Char) (l : List Char) (h : sep ∉ l) : cutAt sep l = none := by
  rcases cutAt_spec sep l with ⟨h1, -⟩ | ⟨a, b, -, h2, -⟩
  · exact h1
  · exact absurd (by rw [h2]; simp) h

theorem cutAt_append (sep : Char) (a b : List Char) (h : sep ∉ a) :
    cutAt sep (a ++ sep :: b) = some (a, b) := by
  induction a with
  | nil => simp [cutAt]
  | cons c t ih =>
    have h1 : c ≠ sep := fun e => h (by simp [e])
    have h2 : sep ∉ t := fun e => h (by simp [e])
    show cutAt sep (c :: (t ++ sep :: b)) = _
    rw [cutAt, if_neg h1, ih h2]

theorem splitChars_of_not_mem (sep : Char) (l : List Char) (h : sep ∉ l) :
    splitChars sep l = [l] := by
  induction l with
  | nil => rfl
  | cons c t ih =>
    have h1 : c ≠ sep := fun e => h (by simp [e])
    have h2 : sep ∉ t := fun e => h (by simp [e])
    rw [splitChars, if_neg h1, ih h2]

theorem splitChars_append (sep : Char) (a b : List Char) (h : sep ∉ a) :
    splitChars sep (a ++ sep :: b) = a :: splitChars sep b := by
  induction a with
  | nil => simp [splitChars]
  | cons c t ih =>
    have h1 : c ≠ sep := fun e => h (by simp [e])
    have h2 : sep ∉ t := fun e => h (by simp [e])
    show splitChars sep (c :: (t ++ sep :: b)) = _
    rw [splitChars, if_neg h1, ih h2]

theorem dropNL_concat (l : List Char) : dropNL (l ++ ['\n']) = l := by
  simp [dropNL]

theorem length_normalizeCRLF (l : List Char) : (normalizeCRLF l).length ≤ l.length := by
  unfold normalizeCRLF
  split
  · simp only [List.length_append, List.length_dropLast, List.length_singleton]
    rename_i h
    have : l ≠ [] := by intro e; rw [e] at h; simp at h
    have := List.length_pos.2 this
    omega
  · exact le_refl _

theorem length_dropTrailingCR (l : List Char) : (dropTrailingCR l).length ≤ l.length := by
  unfold dropTrailingCR
  split
  · simp
  · exact le_refl _

theorem normalizeCRLF_of_not_mem (l : List Char) (h : '\r' ∉ l) : normalizeCRLF l = l := by
  unfold normalizeCRLF
  rw [if_neg]
  rintro ⟨-, h2⟩
  exact h (List.dropLast_subset l (List.mem_of_getLast?_eq_some h2))

theorem dropTrailingCR_of_not_mem (l : List Char) (h : '\r' ∉ l) : dropTrailingCR l = l := by
  unfold dropTrailingCR
  rw [if_neg]
  intro h2
  exact h (List.mem_of_getLast?_eq_some h2)

/-- What `readLine` returns: nothing at the end of the input, and otherwise a
piece of the input that leaves less of it. -/
theorem csvReadLine_cases (input : List Char) :
    (input = [] ∧ csvReadLine input = ([], true, [])) ∨
    (input ≠ [] ∧ ∃ l r, csvReadLine input = (l, false, r) ∧
      l.length + r.length ≤ input.length ∧ r.length < input.length ∧
      ('\r' ∉ input → l ++ r = input ∧ l ≠ [] ∧ (l.getLast? = some '\n' ∨ r = []))) := by
  by_cases h0 : input = []
  · left; subst h0; exact ⟨rfl, rfl⟩
  · right
    refine ⟨h0, ?_⟩
    by_cases hmem : '\n' ∈ input
    · obtain ⟨line, rest, hs, ⟨body, hb, rfl⟩, rfl⟩ := splitLine_some input hmem
      refine ⟨normalizeCRLF (body ++ ['\n']), rest, by rw [csvReadLine, hs], ?_, ?_, ?_⟩
      · have := length_normalizeCRLF (body ++ ['\n'])
        simp only [List.length_append] at this ⊢
        omega
      · simp only [List.length_append, List.length_singleton]
        omega
      · intro hcr
        have hcr' : '\r' ∉ body ++ ['\n'] := fun e => hcr (by simp at e ⊢; tauto)
        rw [normalizeCRLF_of_not_mem _ hcr']
        exact ⟨rfl, by simp, Or.inl (by simp)⟩
    · refine ⟨dropTrailingCR input, [], by simp [csvReadLine, splitLine_none input hmem, h0],
        ?_, ?_, ?_⟩
      · simpa using length_dropTrailingCR input
      · simpa using List.length_pos.2 h0
      · intro hcr
        rw [dropTrailingCR_of_not_mem _ hcr]
        exact ⟨by simp, h0, Or.inr rfl⟩

theorem length_cutAt {sep : Char} {l a b : List Char} (h : cutAt sep l = some (a, b)) :
    l = a ++ sep :: b := by
  rcases cutAt_spec sep l with ⟨h1, -⟩ | ⟨a', b', h1, h2, -⟩
  · rw [h1] at h; simp at h
  · rw [h1] at h
    simp only [Option.some.injEq, Prod.mk.injEq] at h
    rw [← h.1, ← h.2]; exact h2

/-- The field loop ends within the budget the reader gives it, and never gives
back more input than it was given. -/
theorem csvFields_total (comma : Char) (n : Nat) :
    ∀ (quoted : Bool) (line rest buf : List Char) (fields : List (List Char)),
      line.length + rest.length < n →
      ∃ fs r, csvFields comma n quoted line rest buf fields = some (fs, r) ∧
        r.length ≤ rest.length := by
  induction n with
  | zero => intro quoted line rest buf fields h; omega
  | succ n ih =>
    intro quoted line rest buf fields hlen
    cases quoted with
    | false =>
      simp only [csvFields]
      by_cases hh : line.head? = some '"'
      · rw [if_pos hh]
        have hne : line ≠ [] := by intro e; rw [e] at hh; simp at hh
        have := List.length_pos.2 hne
        exact ih true line.tail rest [] fields (by simp only [List.length_tail]; omega)
      · rw [if_neg hh]
        cases hc : cutAt comma line with
        | none => exact ⟨_, _, rfl, le_refl _⟩
        | some p =>
          obtain ⟨a, b⟩ := p
          have hl := congrArg List.length (length_cutAt hc)
          simp only [List.length_append, List.length_cons] at hl
          exact ih false b rest [] _ (by omega)
    | true =>
      simp only [csvFields]
      cases hc : cutAt '"' line with
      | some p =>
        obtain ⟨before, after⟩ := p
        have hl := congrArg List.length (length_cutAt hc)
        simp only [List.length_append, List.length_cons] at hl
        cases after with
        | nil => exact ⟨_, _, rfl, le_refl _⟩
        | cons c after' =>
          simp only [List.length_cons] at hl
          simp only []
          split
          · exact ih true after' rest _ fields (by omega)
          · split
            · exact ih false after' rest [] _ (by omega)
            · split
              · exact ⟨_, _, rfl, le_refl _⟩
              · exact ih true (c :: after') rest _ fields (by simp only [List.length_cons]; omega)
      | none =>
        cases line with
        | nil => exact ⟨_, _, rfl, le_refl _⟩
        | cons x t =>
          simp only []
          rcases csvReadLine_cases rest with ⟨h0, hr⟩ | ⟨-, l, r, hr, h1, h2, -⟩
          · rw [hr]
            obtain ⟨fs, r', h3, h4⟩ := ih true [] [] (buf ++ x :: t) fields
              (by simp only [List.length_cons] at hlen; simp; omega)
            exact ⟨fs, r', h3, by simp at h4; simp [h4]⟩
          · rw [hr]
            obtain ⟨fs, r', h3, h4⟩ := ih true l r (buf ++ x :: t) fields
              (by simp only [List.length_cons] at hlen; omega)
            exact ⟨fs, r', h3, by omega⟩

theorem csvNextLine_total (n : Nat) : ∀ input : List Char, input.length < n →
    csvNextLine n input = some none ∨
    ∃ line rest, csvNextLine n input = some (some (line, rest)) ∧
      line.length + rest.length ≤ input.length ∧ rest.length < input.length := by
  induction n with
  | zero => intro input h; omega
  | succ n ih =>
    intro input hlen
    simp only [csvNextLine]
    rcases csvReadLine_cases input with ⟨-, hr⟩ | ⟨-, l, r, hr, h1, h2, -⟩
    · rw [hr]; left; simp
    · rw [hr]
      simp only [Bool.false_eq_true, if_false]
      split
      · rcases ih r (by omega) with h | ⟨line, rest, h, h3, h4⟩
        · exact Or.inl h
        · exact Or.inr ⟨line, rest, h, by omega, by omega⟩
      · exact Or.inr ⟨l, r, rfl, h1, h2⟩

/-- Reading a record always ends: with end-of-stream, or with a record and
less input than before. -/
theorem csvReadRecord_total (comma : Char) (input : List Char) :
    csvReadRecord comma input = CsvRecord.eof ∨
    ∃ fs rest, csvReadRecord comma input = CsvRecord.fields fs rest ∧
      rest.length < input.length := by
  unfold csvReadRecord
  rcases csvNextLine_total (input.length + 1) input (by omega) with h | ⟨line, rest, h, h1, h2⟩
  · rw [h]; left; rfl
  · rw [h]
    obtain ⟨fs, r, h3, h4⟩ := csvFields_total comma (line.length + rest.length + 1) false line rest
      [] [] (by omega)
    simp only [h3]
    exact Or.inr ⟨fs, r, rfl, by omega⟩

/-- Reading all records always ends within a budget above the input length. -/
theorem csvReadAll_total (comma : Char) (n : Nat) :
    ∀ (input : List Char) (fieldsPerRecord : Nat), input.length < n →
      ∃ results, csvReadAll comma n input fieldsPerRecord = some results := by
  induction n with
  | zero => intro input fieldsPerRecord h; omega
  | succ n ih =>
    intro input fieldsPerRecord hlen
    simp only [csvReadAll]
    rcases csvReadRecord_total comma input with h | ⟨fs, rest, h, h1⟩
    · rw [h]; exact ⟨[], rfl⟩
    · rw [h]
      simp only []
      obtain ⟨results, hr⟩ := ih rest (if fieldsPerRecord = 0 then fs.length else fieldsPerRecord)
        (by omega)
      rw [hr]
      exact ⟨_, rfl⟩

/-- The budget does not matter once it is above the input length. -/
theorem csvReadAll_fuel (comma : Char) (n : Nat) :
    ∀ (m : Nat) (input : List Char) (fieldsPerRecord : Nat),
      input.length < n → input.length < m →
      csvReadAll comma n input fieldsPerRecord = csvReadAll comma m input fieldsPerRecord := by
  induction n with
  | zero => intro m input fieldsPerRecord h; omega
  | succ n ih =>
    intro m input fieldsPerRecord hn hm
    cases m with
    | zero => omega
    | succ m =>
      simp only [csvReadAll]
      rcases csvReadRecord_total comma input with h | ⟨fs, rest, h, h1⟩
      · rw [h]
      · rw [h]
        simp only []
        rw [ih m rest _ (by omega) (by omega)]

theorem dropTrailingCR_cons (c : Char) (t : List Char) (h : t ≠ []) :
    dropTrailingCR (c :: t) = c :: dropTrailingCR t := by
  obtain ⟨x, t', rfl⟩ := List.exists_cons_of_ne_nil h
  unfold dropTrailingCR
  simp only [List.getLast?_cons_cons, List.dropLast_cons₂]
  split <;> rfl

theorem mem_of_mem_dropTrailingCR (l : List Char) : ∀ c ∈ dropTrailingCR l, c ∈ l := by
  intro c hc
  unfold dropTrailingCR at hc
  split at hc
  · exact List.dropLast_subset l hc
  · exact hc

theorem normalizeCRLF_concat (body : List Char) :
    normalizeCRLF (body ++ ['\n']) = dropTrailingCR body ++ ['\n'] := by
  have h1 : (body ++ ['\n']).getLast? = some '\n' := by simp
  unfold normalizeCRLF dropTrailingCR
  rw [List.dropLast_concat]
  by_cases h : body.getLast? = some '\r'
  · rw [if_pos ⟨h1, h⟩, if_pos h]
  · rw [if_neg (fun e => h e.2), if_neg h]

/-- Before a newline `crlfToLf` acts on the line as `readLine` does. -/
theorem crlfToLf_line (body r : List Char) (h : '\n' ∉ body) :
    crlfToLf (body ++ '\n' :: r) = dropTrailingCR body ++ '\n' :: crlfToLf r := by
  induction body with
  | nil =>
    have h1 : ¬ ('\n' = '\r' ∧ (r = [] ∨ r.head? = some '\n')) := by
      rintro ⟨e, -⟩; exact absurd e (by decide)
    simp only [List.nil_append, crlfToLf, if_neg h1]
    rfl
  | cons c t ih =>
    have hc : c ≠ '\n' := fun e => h (by simp [e])
    have ht : '\n' ∉ t := fun e => h (by simp [e])
    cases t with
    | nil =>
      by_cases hcr : c = '\r'
      · subst hcr
        have h1 : ¬ ('\n' = '\r' ∧ (r = [] ∨ r.head? = some '\n')) := by
          rintro ⟨e, -⟩; exact absurd e (by decide)
        simp [crlfToLf, dropTrailingCR, h1]
      · have h2 : ¬ ('\n' = '\r' ∧ (r = [] ∨ r.head? = some '\n')) := by
          rintro ⟨e, -⟩; exact absurd e (by decide)
        simp [crlfToLf, dropTrailingCR, hcr, h2]
    | cons d t' =>
      have hd : d ≠ '\n' := fun e => ht (by simp [e])
      have h1 : ¬ (c = '\r' ∧ (d :: t' ++ '\n' :: r = [] ∨
          (d :: t' ++ '\n' :: r).head? = some '\n')) := by
        rintro ⟨-, e | e⟩
        · simp at e
        · simp at e; exact hd e
      rw [dropTrailingCR_cons c (d :: t') (by simp)]
      show crlfToLf (c :: (d :: t' ++ '\n' :: r)) = _
      rw [crlfToLf, if_neg h1, ih ht]
      rfl

/-- On a last line without newline `crlfToLf` acts as `readLine` does. -/
theorem crlfToLf_last (x : List Char) (h : '\n' ∉ x) : crlfToLf x = dropTrailingCR x := by
  induction x with
  | nil => rfl
  | cons c t ih =>
    have ht : '\n' ∉ t := fun e => h (by simp [e])
    cases t with
    | nil =>
      by_cases hcr : c = '\r'
      · subst hcr; simp [crlfToLf, dropTrailingCR]
      · simp [crlfToLf, dropTrailingCR, hcr]
    | cons d t' =>
      have hd : d ≠ '\n' := fun e => ht (by simp [e])
      have h1 : ¬ (c = '\r' ∧ (d :: t' = [] ∨ (d :: t').head? = some '\n')) := by
        rintro ⟨-, e | e⟩
        · simp at e
        · simp at e; exact hd e
      rw [dropTrailingCR_cons c (d :: t') (by simp), crlfToLf, if_neg h1, ih ht]

/-- A line read by `readLine`, in terms of the input: the line is what
`crlfToLf` makes of its part of the input. -/
theorem csvReadLine_spec (input : List Char) (h0 : input ≠ []) :
    ∃ l r, csvReadLine input = (l, false, r) ∧ crlfToLf input = l ++ crlfToLf r ∧
      (l.getLast? = some '\n' ∨ r = []) ∧ (∀ c ∈ l, c ∈ input) ∧ (∀ c ∈ r, c ∈ input) ∧
      l.length + r.length ≤ input.length := by
  by_cases hmem : '\n' ∈ input
  · obtain ⟨line, rest, hs, ⟨body, hb, rfl⟩, rfl⟩ := splitLine_some input hmem
    refine ⟨dropTrailingCR body ++ ['\n'], rest, ?_, ?_, Or.inl (by simp), ?_, ?_, ?_⟩
    · simp only [csvReadLine, hs, normalizeCRLF_concat]
    · have := crlfToLf_line body rest hb
      simpa using this
    · intro c hc
      rcases List.mem_append.1 hc with hc | hc
      · have := mem_of_mem_dropTrailingCR body c hc
        simp [this]
      · simp at hc; simp [hc]
    · intro c hc; simp [hc]
    · have := length_dropTrailingCR body
      simp only [List.length_append, List.length_singleton] at this ⊢
      omega
  · refine ⟨dropTrailingCR input, [], ?_, ?_, Or.inr rfl, mem_of_mem_dropTrailingCR input, ?_,
      ?_⟩
    · simp [csvReadLine, splitLine_none input hmem, h0]
    · rw [crlfToLf_last input hmem]; simp [crlfToLf]
    · intro c hc; simp at hc
    · simpa using length_dropTrailingCR input

theorem csvReadLine_newline (line rest : List Char) (hnl : '\n' ∉ line) :
    csvReadLine (line ++ '\n' :: rest) = (dropTrailingCR line ++ ['\n'], false, rest) := by
  simp only [csvReadLine, splitLine_append_newline line rest hnl, normalizeCRLF_concat]

theorem dropNL_of_not_mem (l : List Char) (h : '\n' ∉ l) : dropNL l = l := by
  unfold dropNL
  rw [if_neg]
  intro e
  exact h (List.mem_of_getLast?_eq_some e)

/-- A line in which no field begins with a quote is cut at the separators,
whatever quote characters it contains; `nl` is the line end, a newline or
nothing at the end of the input. -/
theorem csvFields_plain (rest : List Char) (n : Nat) :
    ∀ (line : List Char), line.length < n → '\n' ∉ line →
      (∀ f ∈ splitChars ';' line, f.head? ≠ some '"') →
      ∀ (nl : List Char), (nl = [] ∨ nl = ['\n']) →
      ∀ (buf : List Char) (fields : List (List Char)),
        csvFields ';' n false (line ++ nl) rest buf fields =
          some (fields ++ splitChars ';' line, rest) := by
  induction n with
  | zero => intro line h; omega
  | succ n ih =>
    intro line hlen hnl hq nl hnlc buf fields
    have hdrop : dropNL (line ++ nl) = line := by
      rcases hnlc with rfl | rfl
      · simpa using dropNL_of_not_mem line hnl
      · exact dropNL_concat line
    have hnlq : nl.head? ≠ some '"' := by
      rcases hnlc with rfl | rfl
      · simp
      · simp
    have hnls : ';' ∉ nl := by
      rcases hnlc with rfl | rfl
      · simp
      · simp
    rcases cutAt_spec ';' line with ⟨-, hno⟩ | ⟨a, b, -, hl, ha⟩
    · rw [splitChars_of_not_mem ';' line hno] at hq ⊢
      have hq' : line.head? ≠ some '"' := hq line (by simp)
      have hhead : ¬ (line ++ nl).head? = some '"' := by
        intro e
        cases line with
        | nil => exact hnlq (by simpa using e)
        | cons c t => exact hq' (by simpa using e)
      have hno' : ';' ∉ line ++ nl := by
        intro e
        rcases List.mem_append.1 e with e | e
        · exact hno e
        · exact hnls e
      simp only [csvFields, if_neg hhead, cutAt_of_not_mem ';' _ hno', hdrop]
    · subst hl
      rw [splitChars_append ';' a b ha] at hq ⊢
      have hq' : a.head? ≠ some '"' := hq a (by simp)
      have hhead : ¬ (a ++ ';' :: b ++ nl).head? = some '"' := by
        intro e
        cases a with
        | nil => simp at e
        | cons c t => exact hq' (by simpa using e)
      have hcut : cutAt ';' (a ++ ';' :: b ++ nl) = some (a, b ++ nl) := by
        have := cutAt_append ';' a (b ++ nl) ha
        simpa using this
      have hb : b.length < n := by
        simp only [List.length_append, List.length_cons] at hlen
        omega
      have hnlb : '\n' ∉ b := fun e => hnl (by simp [e])
      simp only [csvFields, if_neg hhead, hcut]
      rw [ih b hb hnlb (fun f hf => hq f (by simp [hf])) nl hnlc]
      simp

/-- Reading a record from a line that ends in a newline and in which no field
begins with a quote: a carriage return before the newline is dropped, the rest
is cut at the separators, and reading goes on after the newline. -/
theorem csvReadRecord_plain (line rest : List Char) (hnl : '\n' ∉ line)
    (hne : dropTrailingCR line ≠ [])
    (hq : ∀ f ∈ splitChars ';' (dropTrailingCR line), f.head? ≠ some '"') :
    csvReadRecord ';' (line ++ '\n' :: rest) =
      CsvRecord.fields (splitChars ';' (dropTrailingCR line)) rest := by
  have hnl' : '\n' ∉ dropTrailingCR line := fun e => hnl (mem_of_mem_dropTrailingCR line _ e)
  have h1 : ¬ (dropTrailingCR line ++ ['\n'] = [] ∨ dropTrailingCR line ++ ['\n'] = ['\n']) := by
    rintro (h | h)
    · simp at h
    · have := congrArg List.length h
      simp at this
      exact hne this
  simp only [csvReadRecord, csvNextLine, csvReadLine_newline line rest hnl]
  rw [if_neg (by simp), if_neg h1]
  simp only []
  rw [csvFields_plain rest _ (dropTrailingCR line) (by simp; omega) hnl' hq ['\n'] (Or.inr rfl)]
  simp

/-- The same for a last line that the input ends without a newline. -/
theorem csvReadRecord_plain_last (line : List Char) (hnl : '\n' ∉ line)
    (hne : dropTrailingCR line ≠ [])
    (hq : ∀ f ∈ splitChars ';' (dropTrailingCR line), f.head? ≠ some '"') :
    csvReadRecord ';' line = CsvRecord.fields (splitChars ';' (dropTrailingCR line)) [] := by
  have hnl' : '\n' ∉ dropTrailingCR line := fun e => hnl (mem_of_mem_dropTrailingCR line _ e)
  have h0 : line ≠ [] := by
    intro e; rw [e] at hne; exact hne rfl
  have h1 : ¬ (dropTrailingCR line = [] ∨ dropTrailingCR line = ['\n']) := by
    rintro (h | h)
    · exact hne h
    · exact hnl' (by rw [h]; simp)
  have hr : csvReadLine line = (dropTrailingCR line, false, []) := by
    simp [csvReadLine, splitLine_none line hnl, h0]
  simp only [csvReadRecord, csvNextLine, hr]
  rw [if_neg (by simp), if_neg h1]
  simp only []
  have := csvFields_plain [] (dropTrailingCR line).length.succ (dropTrailingCR line)
    (by omega) hnl' hq [] (Or.inl rfl) [] []
  simp only [List.append_nil, List.nil_append] at this
  simp only [List.length_nil, Nat.add_zero]
  rw [this]

/-- Inside a quoted field that is never closed the loop takes the rest of the
line and all the input after it into the field. -/
theorem csvFields_open (n : Nat) :
    ∀ (line rest buf : List Char) (fields : List (List Char)),
      '"' ∉ line → '"' ∉ rest → (line = [] → rest = []) →
      line.length + rest.length < n →
      csvFields ';' n true line rest buf fields =
        some (fields ++ [buf ++ line ++ crlfToLf rest], []) := by
  induction n with
  | zero => intro line rest buf fields _ _ _ h; omega
  | succ n ih =>
    intro line rest buf fields hql hqr hempty hlen
    simp only [csvFields, cutAt_of_not_mem '"' line hql]
    cases line with
    | nil =>
      have := hempty rfl
      subst this
      simp [crlfToLf]
    | cons x t =>
      simp only []
      by_cases h0 : rest = []
      · subst h0
        have hr : csvReadLine [] = ([], true, []) := rfl
        rw [hr]
        simp only [List.length_cons, List.length_nil] at hlen
        rw [ih [] [] (buf ++ x :: t) fields (by simp) (by simp) (fun _ => rfl) (by simp; omega)]
        simp [crlfToLf]
      · obtain ⟨l, r, hr, hcr, hlast, hl, hrm, hlen2⟩ := csvReadLine_spec rest h0
        rw [hr]
        have hql' : '"' ∉ l := fun e => hqr (hl _ e)
        have hqr' : '"' ∉ r := fun e => hqr (hrm _ e)
        have hemp : l = [] → r = [] := by
          intro e
          rcases hlast with h | h
          · rw [e] at h; simp at h
          · exact h
        simp only [List.length_cons] at hlen
        rw [ih l r (buf ++ x :: t) fields hql' hqr' hemp (by omega), hcr]
        simp

theorem mem_of_mem_crlfToLf (x : List Char) : ∀ c ∈ crlfToLf x, c ∈ x := by
  induction x with
  | nil => intro c h; simp [crlfToLf] at h
  | cons d t ih =>
    intro c h
    rw [crlfToLf] at h
    split at h
    · exact List.mem_cons_of_mem _ (ih c h)
    · rcases List.mem_cons.1 h with rfl | h
      · exact List.mem_cons_self _ _
      · exact List.mem_cons_of_mem _ (ih c h)

theorem mem_crlfToLf_of_mem (x : List Char) (c : Char) (hc : c ≠ '\r') :
    c ∈ x → c ∈ crlfToLf x := by
  induction x with
  | nil => intro h; simp at h
  | cons d t ih =>
    intro h
    rw [crlfToLf]
    rcases List.mem_cons.1 h with rfl | h
    · rw [if_neg (fun e => hc e.1)]
      exact List.mem_cons_self _ _
    · split
      · exact ih h
      · exact List.mem_cons_of_mem _ (ih h)

/-- A record that begins with a quote after which no further quote follows
is one field that holds all the remaining input. -/
theorem csvReadRecord_open (body : List Char) (hq : '"' ∉ body) :
    csvReadRecord ';' ('"' :: body) = CsvRecord.fields [crlfToLf body] [] := by
  obtain ⟨l, r, hr, hcr, hlast, hl, hrm, hlen⟩ := csvReadLine_spec ('"' :: body) (by simp)
  have hq1 : ¬ ('"' = '\r' ∧ (body = [] ∨ body.head? = some '\n')) := by
    rintro ⟨e, -⟩; exact absurd e (by decide)
  rw [crlfToLf, if_neg hq1] at hcr
  have hlne : l ≠ [] := by
    intro e
    subst e
    rcases hlast with h | h
    · simp at h
    · subst h; simp [crlfToLf] at hcr
  obtain ⟨x, l', rfl⟩ := List.exists_cons_of_ne_nil hlne
  simp only [List.cons_append, List.cons.injEq] at hcr
  obtain ⟨hx, hbody⟩ := hcr
  subst hx
  have hnot : ¬ ('"' :: l' = [] ∨ '"' :: l' = ['\n']) := by
    rintro (e | e)
    · simp at e
    · simp only [List.cons.injEq] at e
      exact absurd e.1 (by decide)
  have hql : '"' ∉ l' := fun e =>
    hq (mem_of_mem_crlfToLf body _ (by rw [hbody]; exact List.mem_append_left _ e))
  have hqr : '"' ∉ r := fun e =>
    hq (mem_of_mem_crlfToLf body _ (by
      rw [hbody]
      exact List.mem_append_right _ (mem_crlfToLf_of_mem r _ (by decide) e)))
  have hempty : l' = [] → r = [] := by
    intro e
    subst e
    rcases hlast with e | e
    · simp at e
    · exact e
  unfold csvReadRecord
  simp only [csvNextLine, hr, Bool.false_eq_true, if_false, if_neg hnot]
  simp only [csvFields, List.head?_cons, if_true, List.tail_cons, List.length_cons]
  rw [csvFields_open _ l' r [] [] hql hqr hempty (by omega)]
  simp [hbody]

theorem skipLoop_atEnd (k : Nat) : ∀ r : Reader, (skipLoop k r).2.atEnd = r.atEnd := by
  induction k with
  | zero => intro r; rfl
  | succ k ih =>
    intro r
    simp only [skipLoop, Reader.ReadString]
    cases hs : splitLine r.unread with
    | some p =>
      obtain ⟨line, rest⟩ := p
      simp only []
      rw [if_neg (by simp)]
      exact ih _
    | none =>
      simp only []
      split
      · rfl
      · exact ih _

/-- For a source that ends in end-of-stream the reader delivers a finite
sequence of results. -/
theorem lazyCsvResults_of_eof (text : List Char) :
    ∃ results, lazyCsvResults ⟨text, ReadError.EOF⟩ = some results :=
  csvReadAll_total ';' (text.length + 1) text 0 (by omega)

/-! ## The read loop and the number of output fields -/

theorem readLoop_eq (columnIndices : List Int) (results : List ReadResult) :
    ∀ written : List (List String),
      readLoop columnIndices results written = written ++ rowsOfResults columnIndices results := by
  induction results with
  | nil => intro written; simp [readLoop, rowsOfResults]
  | cons res rest ih =>
    intro written
    cases res with
    | record record =>
      simp only [readLoop, ih, rowsOfResults, List.filterMap_cons, List.append_assoc,
        List.singleton_append]
    | failure msg =>
      simp only [readLoop, ih, rowsOfResults, List.filterMap_cons]

theorem csvReadAll_of_fields (comma : Char) (input : List Char) (fieldsPerRecord : Nat)
    (fs : List (List Char)) (rest : List Char)
    (h : csvReadRecord comma input = CsvRecord.fields fs rest) :
    ∃ following,
      csvReadAll comma (rest.length + 1) rest
        (if fieldsPerRecord = 0 then fs.length else fieldsPerRecord) = some following ∧
      csvReadAll comma (input.length + 1) input fieldsPerRecord =
        some (csvResult fieldsPerRecord fs :: following) := by
  have hlt : rest.length < input.length := by
    rcases csvReadRecord_total comma input with e | ⟨fs', rest', e, hl⟩
    · rw [e] at h; simp at h
    · rw [e] at h
      simp only [CsvRecord.fields.injEq] at h
      rw [← h.2]; exact hl
  obtain ⟨following, hf⟩ := csvReadAll_total comma (rest.length + 1) rest
    (if fieldsPerRecord = 0 then fs.length else fieldsPerRecord) (by omega)
  refine ⟨following, hf, ?_⟩
  simp only [csvReadAll, h]
  rw [csvReadAll_fuel comma input.length (rest.length + 1) rest _ hlt (by omega), hf]

theorem mem_rowsOfResults (columnIndices : List Int) (results : List ReadResult)
    (fields : List String) (h : ReadResult.record fields ∈ results) :
    keepColumns fields columnIndices ∈ rowsOfResults columnIndices results := by
  simp only [rowsOfResults, List.mem_filterMap]
  exact ⟨_, h, rfl⟩

theorem length_filter_enum (record : List String) (q : Nat → Bool) :
    (record.enum.filter fun p => q p.1).length = ((List.range record.length).filter q).length := by
  have h : (record.enum.filter fun p => q p.1).map Prod.fst =
      (record.enum.map Prod.fst).filter q := by
    rw [List.filter_map]; rfl
  rw [← List.length_map _ Prod.fst, h, List.enum_map_fst]

/-- The number of output fields is the number of distinct positions of the
record that occur in the selection. -/
theorem length_keepColumns (record : List String) (selection : List Int) :
    (keepColumns record selection).length =
      (selection.dedup.filter fun p => decide (0 ≤ p ∧ p < (record.length : Int))).length := by
  rw [keepColumns_eq, projectInRecordOrder, List.length_map,
    length_filter_enum record (fun i => decide ((i : Int) ∈ selection)),
    ← List.length_map _ (fun i : Nat => (i : Int))]
  apply List.Perm.length_eq
  rw [List.perm_ext_iff_of_nodup]
  · intro x
    simp only [List.mem_map, List.mem_filter, List.mem_range, decide_eq_true_eq, List.mem_dedup]
    constructor
    · rintro ⟨i, ⟨hi, hmem⟩, rfl⟩
      exact ⟨hmem, by omega, by omega⟩
    · rintro ⟨hmem, h0, hlt⟩
      refine ⟨x.toNat, ⟨by omega, ?_⟩, by omega⟩
      rw [Int.toNat_of_nonneg h0]; exact hmem
  · apply List.Nodup.map
    · intro a b h; exact Int.ofNat_inj.1 h
    · exact (List.nodup_range _).filter _
  · exact (List.nodup_dedup _).filter _

/-! ## The scenario, the read loop, and further properties of the extractor -/

/-- C11, the claim as stated fails: with the configuration "2,5,6" and the
record of the data line as the claim writes it, with ordinary spaces before the
euro signs, keepColumns returns the third field with its suffix, "4.500,00 €",
and not "4.500,00": the pattern of the source has the no-break space U+00A0
before the euro sign. -/
theorem end_to_end_ordinary_space :
    parseColumnsToKeep "2,5,6" = (some [1, 4, 5], none) ∧
    keepColumns ["A", "1", "B", "2", "3", "4.500,00 €", "x", "9,99 €"] [1, 4, 5] =
      ["1", "3", "4.500,00 €"] ∧
    keepColumns ["A", "1", "B", "2", "3", "4.500,00 €", "x", "9,99 €"] [1, 4, 5] ≠
      ["1", "3", "4.500,00"] := by
  refine ⟨by decide, by decide, by decide⟩

/-- C11, amended: end-to-end scenario.  The column configuration "2,5,6" parses
to the positions 1, 4, 5.  The data line A;1;B;2;3;4.500,00 €;x;9,99 € is read
as the record of its eight fields; written with ordinary spaces before the euro
signs it is projected to the row "1", "3", "4.500,00 €", the amount keeping its
suffix; written with the no-break space U+00A0 before each euro sign it is
projected to exactly the row "1", "3", "4.500,00". -/
theorem end_to_end_scenario :
    parseColumnsToKeep "2,5,6" = (some [1, 4, 5], none) ∧
    lazyCsvResults ⟨"A;1;B;2;3;4.500,00 €;x;9,99 €\n".data, ReadError.EOF⟩ =
      some [ReadResult.record ["A", "1", "B", "2", "3", "4.500,00 €", "x", "9,99 €"]] ∧
    keepColumns ["A", "1", "B", "2", "3", "4.500,00 €", "x", "9,99 €"] [1, 4, 5] =
      ["1", "3", "4.500,00 €"] ∧
    lazyCsvResults ⟨"A;1;B;2;3;4.500,00\u00A0€;x;9,99\u00A0€\n".data, ReadError.EOF⟩ =
      some [ReadResult.record
        ["A", "1", "B", "2", "3", "4.500,00\u00A0€", "x", "9,99\u00A0€"]] ∧
    keepColumns ["A", "1", "B", "2", "3", "4.500,00\u00A0€", "x", "9,99\u00A0€"] [1, 4, 5] =
      ["1", "3", "4.500,00"] := by
  refine ⟨by decide, by decide, by decide, by decide, by decide⟩

/-- C12: skip-and-continue.  With the record parser modelled as the finite
sequence of read results before end-of-stream, the read loop writes exactly
one row per successfully read record, in input order, equal to keepColumns of
that record.  A read result that is an error is omitted from the output (the
output is the same as without it), is not read again, and does not abort the
run or change the exit status, which is 0 whenever skipping succeeded. -/
theorem readLoop_skip_and_continue (columnIndices : List Int) (results : List ReadResult) :
    readLoop columnIndices results [] = rowsOfResults columnIndices results ∧
    (readLoop columnIndices results []).length =
      (results.filter fun res => match res with
        | ReadResult.record _ => true
        | ReadResult.failure _ => false).length ∧
    (∀ (before after : List ReadResult) (msg : String),
      readLoop columnIndices (before ++ ReadResult.failure msg :: after) [] =
        readLoop columnIndices (before ++ after) []) ∧
    (∀ (csvResults : Reader → List ReadResult) (recordsToSkip : Int) (input reader : Reader),
      skipRecords input recordsToSkip = (none, reader) →
        processInput csvResults columnIndices recordsToSkip input =
          (0, rowsOfResults columnIndices (csvResults reader))) := by
  refine ⟨by simp [readLoop_eq], ?_, ?_, ?_⟩
  · rw [readLoop_eq]
    simp only [List.nil_append, rowsOfResults]
    induction results with
    | nil => rfl
    | cons res rest ih =>
      cases res with
      | record record => simp [List.filterMap_cons, List.filter_cons, ih]
      | failure msg => simp [List.filterMap_cons, List.filter_cons, ih]
  · intro before after msg
    simp [readLoop_eq, rowsOfResults, List.filterMap_append]
  · intro csvResults recordsToSkip input reader h
    simp [processInput, h, readLoop_eq]

theorem readLoop_skip_and_continue_witness :
    skipRecords ⟨"h\nA;1\n".data, ReadError.EOF⟩ 1 = (none, ⟨"A;1\n".data, ReadError.EOF⟩) ∧
    processInput (fun _ => [ReadResult.failure "bad", ReadResult.record ["A", "1"]]) [1] 1
        ⟨"h\nA;1\n".data, ReadError.EOF⟩ =
      (0, rowsOfResults [1] ((fun _ => [ReadResult.failure "bad", ReadResult.record ["A", "1"]])
        (⟨"A;1\n".data, ReadError.EOF⟩ : Reader))) :=
  ⟨by decide,
    (readLoop_skip_and_continue [1] []).2.2.2
      (fun _ => [ReadResult.failure "bad", ReadResult.record ["A", "1"]]) 1
      ⟨"h\nA;1\n".data, ReadError.EOF⟩ ⟨"A;1\n".data, ReadError.EOF⟩ (by decide)⟩

/-- C13, the claim as stated fails: the configuration "0,3" consists of valid
integers and parseColumnsToKeep returns a selection for it, but the configured
value 0 is not at least 1 and the returned position -1 is negative. -/
theorem parseColumnsToKeep_zero_negative :
    List.Forall₂ ValidInt (Split "0,3" ',') [0, 3] ∧
    parseColumnsToKeep "0,3" = (some [-1, 2], none) ∧
    ¬ (∀ v ∈ ([0, 3] : List Int), 1 ≤ v) ∧
    ¬ (∀ p ∈ ([-1, 2] : List Int), 0 ≤ p) := by
  refine ⟨?_, by decide, by decide, by decide⟩
  have h : Split "0,3" ',' = ["0", "3"] := by decide
  rw [h]
  exact List.Forall₂.cons ((atoi_ok_iff _ _).1 (by rfl))
    (List.Forall₂.cons ((atoi_ok_iff _ _).1 (by rfl)) List.Forall₂.nil)

/-- C13, amended: parseColumnsToKeep does not check that the configured values
are at least 1; but whenever all configured values of a configuration of valid
integers are at least 1, it returns the selection of those values minus 1, and
every position in it is a valid zero-based position (at least 0). -/
theorem parseColumnsToKeep_positions (input : String) (vals : List Int)
    (h : List.Forall₂ ValidInt (Split input ',') vals) (h1 : ∀ v ∈ vals, 1 ≤ v) :
    ∃ cols, parseColumnsToKeep input = (some cols, none) ∧ cols = vals.map (fun v => v - 1) ∧
      ∀ p ∈ cols, 0 ≤ p := by
  refine ⟨vals.map (fun v => v - 1), ?_, rfl, ?_⟩
  · rw [parseColumnsToKeep, parseColumnsLoop_valid _ _ h]
    simp only [List.nil_append]
    congr 2
    apply List.map_congr_left
    intro v hv
    have := h1 v hv
    rw [if_neg]
    intro e
    rw [e] at this
    norm_num at this
  · intro p hp
    obtain ⟨v, hv, rfl⟩ := List.mem_map.1 hp
    have := h1 v hv
    omega

theorem parseColumnsToKeep_positions_witness :
    List.Forall₂ ValidInt (Split "2,5,6" ',') [2, 5, 6] ∧ (∀ v ∈ ([2, 5, 6] : List Int), 1 ≤ v) ∧
    ∃ cols, parseColumnsToKeep "2,5,6" = (some cols, none) ∧
      cols = ([2, 5, 6] : List Int).map (fun v => v - 1) ∧ ∀ p ∈ cols, 0 ≤ p :=
  have h : List.Forall₂ ValidInt (Split "2,5,6" ',') [2, 5, 6] := by
    have hs : Split "2,5,6" ',' = ["2", "5", "6"] := by decide
    rw [hs]
    exact List.Forall₂.cons ((atoi_ok_iff _ _).1 (by rfl))
      (List.Forall₂.cons ((atoi_ok_iff _ _).1 (by rfl))
        (List.Forall₂.cons ((atoi_ok_iff _ _).1 (by rfl)) List.Forall₂.nil))
  ⟨h, by decide, parseColumnsToKeep_positions "2,5,6" [2, 5, 6] h (by decide)⟩

/-- C14, the claim as stated fails: in the input whose first line begins with
an unmatched quote and whose second line is the well-formed record c;d, the
reader with lenient quotes takes both lines into one field; the run ends with
status 0, but the record c;d, which on its own is read as "c", "d", does not
appear in the output. -/
theorem lazyQuotes_takes_following_lines :
    lazyCsvResults ⟨"\"a;b\nc;d\n".data, ReadError.EOF⟩ =
      some [ReadResult.record ["a;b\nc;d\n"]] ∧
    lazyCsvResults ⟨"c;d\n".data, ReadError.EOF⟩ = some [ReadResult.record ["c", "d"]] ∧
    processCsvInput [0, 1] 0 ⟨"\"a;b\nc;d\n".data, ReadError.EOF⟩ =
      some (0, [["a;b\nc;d\n"]]) ∧
    keepColumns ["c", "d"] [0, 1] ∉ [["a;b\nc;d\n"]] := by
  refine ⟨by decide, by decide, by decide, by decide⟩

/-- C14, amended: for every input that ends in end-of-stream, a record with an
unmatched quote does not terminate the run (once skipping succeeded the run
ends with status 0), and every record the reader delivers appears projected in
the output.  When no field of the record's line begins with a quote, the quote
is kept as text: the line, without a carriage return before its newline, is cut
at the separators, and the lines after it are read as they are on their own,
with the field count in force; the same holds for a last line without newline.
When the record begins with a quote and no further quote follows, the reader
takes all the remaining input into that one field (each carriage return before
a newline or at the very end dropped), so the lines after it are not delivered
as records. -/
theorem lazyQuotes_unmatched_quote :
    (∀ (columnIndices : List Int) (recordsToSkip : Int) (source : List Char) (reader : Reader),
      skipRecords ⟨source, ReadError.EOF⟩ recordsToSkip = (none, reader) →
        ∃ results, lazyCsvResults reader = some results ∧
          processCsvInput columnIndices recordsToSkip ⟨source, ReadError.EOF⟩ =
            some (0, rowsOfResults columnIndices results)) ∧
    (∀ (columnIndices : List Int) (results : List ReadResult) (fields : List String),
      ReadResult.record fields ∈ results →
        keepColumns fields columnIndices ∈ rowsOfResults columnIndices results) ∧
    (∀ (line rest : List Char) (fieldsPerRecord : Nat),
      '\n' ∉ line → dropTrailingCR line ≠ [] →
      (∀ f ∈ splitChars ';' (dropTrailingCR line), f.head? ≠ some '"') →
        ∃ following,
          csvReadAll ';' (rest.length + 1) rest
            (if fieldsPerRecord = 0 then (splitChars ';' (dropTrailingCR line)).length
              else fieldsPerRecord) = some following ∧
          csvReadAll ';' ((line ++ '\n' :: rest).length + 1) (line ++ '\n' :: rest)
            fieldsPerRecord =
              some (csvResult fieldsPerRecord (splitChars ';' (dropTrailingCR line)) ::
                following)) ∧
    (∀ (line : List Char) (fieldsPerRecord : Nat),
      '\n' ∉ line → dropTrailingCR line ≠ [] →
      (∀ f ∈ splitChars ';' (dropTrailingCR line), f.head? ≠ some '"') →
        csvReadAll ';' (line.length + 1) line fieldsPerRecord =
          some [csvResult fieldsPerRecord (splitChars ';' (dropTrailingCR line))]) ∧
    (∀ (body : List Char) (fieldsPerRecord : Nat), '"' ∉ body →
      csvReadAll ';' (('"' :: body).length + 1) ('"' :: body) fieldsPerRecord =
        some [csvResult fieldsPerRecord [crlfToLf body]]) ∧
    lazyCsvResults ⟨"a\"b;c\nd;e\n".data, ReadError.EOF⟩ =
      some [ReadResult.record ["a\"b", "c"], ReadResult.record ["d", "e"]] ∧
    lazyCsvResults ⟨"a\"b;c\r\nd;e\r\n".data, ReadError.EOF⟩ =
      some [ReadResult.record ["a\"b", "c"], ReadResult.record ["d", "e"]] ∧
    lazyCsvResults ⟨"x;\"a\r\nc;d\ne\";f\ng;h;i\n".data, ReadError.EOF⟩ =
      some [ReadResult.record ["x", "a\nc;d\ne", "f"], ReadResult.record ["g", "h", "i"]] := by
  have hlast : ∀ (input : List Char) (fieldsPerRecord : Nat) (fs : List (List Char)),
      csvReadRecord ';' input = CsvRecord.fields fs [] →
      csvReadAll ';' (input.length + 1) input fieldsPerRecord =
        some [csvResult fieldsPerRecord fs] := by
    intro input fieldsPerRecord fs h
    obtain ⟨following, hf, h2⟩ := csvReadAll_of_fields ';' input fieldsPerRecord fs [] h
    have h3 : csvReadAll ';' (([] : List Char).length + 1) []
        (if fieldsPerRecord = 0 then fs.length else fieldsPerRecord) = some [] := by
      rfl
    rw [h3] at hf
    rw [h2, ← Option.some.inj hf]
  refine ⟨?_, mem_rowsOfResults, ?_, ?_, ?_, by decide, by decide, by decide⟩
  · intro columnIndices recordsToSkip source reader h
    have hat : reader.atEnd = ReadError.EOF := by
      have := skipLoop_atEnd recordsToSkip.toNat ⟨source, ReadError.EOF⟩
      rw [skipRecords] at h
      rw [h] at this
      exact this
    obtain ⟨text, atEnd⟩ := reader
    simp only at hat
    subst hat
    obtain ⟨results, hr⟩ := lazyCsvResults_of_eof text
    refine ⟨results, hr, ?_⟩
    simp only [processCsvInput, h, hr, readLoop_eq, List.nil_append]
  · intro line rest fieldsPerRecord hnl hne hq
    exact csvReadAll_of_fields ';' _ fieldsPerRecord _ rest
      (csvReadRecord_plain line rest hnl hne hq)
  · intro line fieldsPerRecord hnl hne hq
    exact hlast line fieldsPerRecord _ (csvReadRecord_plain_last line hnl hne hq)
  · intro body fieldsPerRecord hq
    exact hlast _ fieldsPerRecord _ (csvReadRecord_open body hq)

theorem lazyQuotes_unmatched_quote_witness :
    (skipRecords ⟨"h\na\"b;c\r\nd;e\r\n".data, ReadError.EOF⟩ 1 =
        (none, ⟨"a\"b;c\r\nd;e\r\n".data, ReadError.EOF⟩) ∧
      ∃ results, lazyCsvResults ⟨"a\"b;c\r\nd;e\r\n".data, ReadError.EOF⟩ = some results ∧
        processCsvInput [0, 1] 1 ⟨"h\na\"b;c\r\nd;e\r\n".data, ReadError.EOF⟩ =
          some (0, rowsOfResults [0, 1] results)) ∧
    (('\n' ∉ "a\"b;c\r".data ∧ dropTrailingCR "a\"b;c\r".data ≠ [] ∧
        ∀ f ∈ splitChars ';' (dropTrailingCR "a\"b;c\r".data), f.head? ≠ some '"') ∧
      ∃ following,
        csvReadAll ';' ("d;e\r\n".data.length + 1) "d;e\r\n".data
          (if 0 = 0 then (splitChars ';' (dropTrailingCR "a\"b;c\r".data)).length else 0) =
            some following ∧
        csvReadAll ';' (("a\"b;c\r".data ++ '\n' :: "d;e\r\n".data).length + 1)
          ("a\"b;c\r".data ++ '\n' :: "d;e\r\n".data) 0 =
            some (csvResult 0 (splitChars ';' (dropTrailingCR "a\"b;c\r".data)) :: following)) ∧
    (('\n' ∉ "a\"b;c".data ∧ dropTrailingCR "a\"b;c".data ≠ [] ∧
        ∀ f ∈ splitChars ';' (dropTrailingCR "a\"b;c".data), f.head? ≠ some '"') ∧
      csvReadAll ';' ("a\"b;c".data.length + 1) "a\"b;c".data 0 =
        some [csvResult 0 (splitChars ';' (dropTrailingCR "a\"b;c".data))]) ∧
    ('"' ∉ "a;b\r\nc;d\r\n".data ∧
      csvReadAll ';' (('"' :: "a;b\r\nc;d\r\n".data).length + 1) ('"' :: "a;b\r\nc;d\r\n".data) 0 =
        some [csvResult 0 [crlfToLf "a;b\r\nc;d\r\n".data]]) :=
  ⟨⟨by decide,
      lazyQuotes_unmatched_quote.1 [0, 1] 1 "h\na\"b;c\r\nd;e\r\n".data
        ⟨"a\"b;c\r\nd;e\r\n".data, ReadError.EOF⟩ (by decide)⟩,
    ⟨⟨by decide, by decide, by decide⟩,
      lazyQuotes_unmatched_quote.2.2.1 "a\"b;c\r".data "d;e\r\n".data 0 (by decide) (by decide)
        (by decide)⟩,
    ⟨⟨by decide, by decide, by decide⟩,
      lazyQuotes_unmatched_quote.2.2.2.1 "a\"b;c".data 0 (by decide) (by decide) (by decide)⟩,
    ⟨by decide,
      lazyQuotes_unmatched_quote.2.2.2.2.1 "a;b\r\nc;d\r\n".data 0 (by decide)⟩⟩

/-- C15, the claim as stated fails: the field "7", U+00A0, "€" is changed to
"7", yet "7" does not occur in it followed by an ordinary space and the euro
sign; the suffix the pattern of the source requires is U+00A0 and the euro
sign. -/
theorem extractAmount_not_before_ordinary_space :
    extractAmount "7\u00A0€" = "7" ∧ extractAmount "7\u00A0€" ≠ "7\u00A0€" ∧
    ¬ ∃ pre post, "7\u00A0€".data =
      pre ++ (extractAmount "7\u00A0€").data ++ ' ' :: '€' :: post := by
  refine ⟨by decide, by decide, ?_⟩
  rintro ⟨pre, post, h⟩
  have hmem : ' ' ∈ "7\u00A0€".data := by rw [h]; simp
  exact absurd hmem (by decide)

/-- C15, amended: for every field v the result of the amount extractor is a
contiguous part of v; and whenever the result differs from v, the result is a
complete well-formed amount that occurs in v immediately followed by the
no-break space U+00A0 and the euro sign, at the leftmost position of v at which
such an occurrence starts; the text of v before and after that occurrence is
dropped. -/
theorem extractAmount_leftmost_occurrence (v : String) :
    (∃ a b, v.data = a ++ (extractAmount v).data ++ b) ∧
    (extractAmount v ≠ v →
      ∃ pre post, v.data = pre ++ (extractAmount v).data ++ '\u00A0' :: '€' :: post ∧
        WellFormedAmount (extractAmount v).data ∧
        ∀ pre' c' post', v.data = pre' ++ c' ++ '\u00A0' :: '€' :: post' →
          WellFormedAmount c' → pre.length ≤ pre'.length) ∧
    extractAmount "a 1\u00A0€ 22\u00A0€" = "1" := by
  refine ⟨?_, ?_, by decide⟩
  · rcases extractAmount_cases v with ⟨h, -⟩ | ⟨pre, t, c, hx, ⟨hwf, r, rfl⟩, hleft, h⟩
    · exact ⟨[], [], by rw [h]; simp⟩
    · have hd : (extractAmount v).data = c := by rw [h]
      exact ⟨pre, '\u00A0' :: '€' :: r, by rw [hd, hx]; simp⟩
  · intro hne
    rcases extractAmount_extractsTo v with ⟨h, -⟩ | ⟨hwf, pre, post, hv, hleft⟩
    · exact absurd (String.ext h) hne
    · exact ⟨pre, post, hv, hwf, hleft⟩

theorem extractAmount_leftmost_occurrence_witness :
    extractAmount "a 1\u00A0€ 22\u00A0€" ≠ "a 1\u00A0€ 22\u00A0€" ∧
    ∃ pre post, "a 1\u00A0€ 22\u00A0€".data =
        pre ++ (extractAmount "a 1\u00A0€ 22\u00A0€").data ++ '\u00A0' :: '€' :: post ∧
      WellFormedAmount (extractAmount "a 1\u00A0€ 22\u00A0€").data ∧
      ∀ pre' c' post', "a 1\u00A0€ 22\u00A0€".data = pre' ++ c' ++ '\u00A0' :: '€' :: post' →
        WellFormedAmount c' → pre.length ≤ pre'.length :=
  ⟨by decide, (extractAmount_leftmost_occurrence "a 1\u00A0€ 22\u00A0€").2.1 (by decide)⟩

/-- C16, the claim as stated fails in both directions: the field "x 7 € y",
written with ordinary spaces, contains a digit immediately followed by a space
and the euro sign and is left unchanged, and the field "7", U+00A0, "€"
contains no ordinary space at all and is changed to "7". -/
theorem extractAmount_ordinary_space_no_change :
    (∃ a d b, d.isDigit = true ∧ "x 7 € y".data = a ++ d :: ' ' :: '€' :: b) ∧
    extractAmount "x 7 € y" = "x 7 € y" ∧
    (¬ ∃ a d b, d.isDigit = true ∧ "7\u00A0€".data = a ++ d :: ' ' :: '€' :: b) ∧
    extractAmount "7\u00A0€" ≠ "7\u00A0€" := by
  refine ⟨⟨['x', ' '], '7', [' ', 'y'], by decide, by decide⟩, by decide, ?_, by decide⟩
  rintro ⟨a, d, b, -, h⟩
  have hmem : ' ' ∈ "7\u00A0€".data := by rw [h]; simp
  exact absurd hmem (by decide)

/-- C16, amended: the amount extractor changes a field if and only if the field
contains an ASCII digit immediately followed by the no-break space U+00A0 and
the euro sign; in that case the result is strictly shorter than the field (in
characters and in bytes), and otherwise the result equals the field. -/
theorem extractAmount_changes_iff (v : String) :
    (extractAmount v ≠ v ↔
      ∃ a d b, d.isDigit = true ∧ v.data = a ++ d :: '\u00A0' :: '€' :: b) ∧
    (extractAmount v ≠ v →
      (extractAmount v).length < v.length ∧
        byteLen (extractAmount v).data < byteLen v.data) ∧
    ((¬ ∃ a d b, d.isDigit = true ∧ v.data = a ++ d :: '\u00A0' :: '€' :: b) →
      extractAmount v = v) ∧
    extractAmount "x 7\u00A0€ y" = "7" := by
  have hiff : extractAmount v ≠ v ↔
      ∃ a d b, d.isDigit = true ∧ v.data = a ++ d :: '\u00A0' :: '€' :: b := by
    rw [extractAmount_ne_iff_match]
    constructor
    · rintro ⟨pre, t, c, hx, hwf, r, rfl⟩
      obtain ⟨c0, d, hd, rfl⟩ := wellFormed_ends_in_digit hwf
      exact ⟨pre ++ c0, d, r, hd, by rw [hx]; simp⟩
    · rintro ⟨a, d, b, hd, hx⟩
      exact ⟨a, d :: '\u00A0' :: '€' :: b, [d], hx, wellFormed_single_digit d hd, b, rfl⟩
  refine ⟨hiff, ?_, ?_, by decide⟩
  · intro hne
    rcases extractAmount_cases v with ⟨h, -⟩ | ⟨pre, t, c, hx, ⟨hwf, r, rfl⟩, -, h⟩
    · exact absurd h hne
    · have hd : (extractAmount v).data = c := by rw [h]
      constructor
      · show (extractAmount v).data.length < v.data.length
        rw [hd, hx]
        simp only [List.length_append, List.length_cons]
        omega
      · rw [hd, hx]
        simp only [byteLen_append]
        have : 0 < byteLen ('\u00A0' :: '€' :: r) := by
          simp only [byteLen, List.map_cons, List.sum_cons]
          have : Char.utf8Size '\u00A0' = 2 := by decide
          omega
        omega
  · intro hno
    by_contra hne
    exact hno (hiff.1 hne)

theorem extractAmount_changes_iff_witness :
    (extractAmount "x 7\u00A0€ y" ≠ "x 7\u00A0€ y" ∧
      ((extractAmount "x 7\u00A0€ y").length < ("x 7\u00A0€ y").length ∧
        byteLen (extractAmount "x 7\u00A0€ y").data < byteLen ("x 7\u00A0€ y").data)) ∧
    ((¬ ∃ a d b, d.isDigit = true ∧
        "x 7 € y".data = a ++ d :: '\u00A0' :: '€' :: b) ∧
      extractAmount "x 7 € y" = "x 7 € y") :=
  have hno : ¬ ∃ a d b, d.isDigit = true ∧
      "x 7 € y".data = a ++ d :: '\u00A0' :: '€' :: b := by
    rintro ⟨a, d, b, -, h⟩
    have hmem : '\u00A0' ∈ "x 7 € y".data := by rw [h]; simp
    exact absurd hmem (by decide)
  ⟨⟨by decide, (extractAmount_changes_iff "x 7\u00A0€ y").2.1 (by decide)⟩,
    ⟨hno, (extractAmount_changes_iff "x 7 € y").2.2.1 hno⟩⟩

/-- C17, the claim as stated fails: "1234" is a string of four ASCII digits and
",56" a decimal part, but the fields "1234,56 €" and "-1234,56 €", written
with an ordinary space, are returned unchanged and not as "234,56". -/
theorem extractAmount_ordinary_space_not_truncated :
    Digits "1234".data ∧ 4 ≤ "1234".data.length ∧ DecimalPart ",56".data ∧
    extractAmount "1234,56 €" = "1234,56 €" ∧ extractAmount "1234,56 €" ≠ "234,56" ∧
    extractAmount "-1234,56 €" = "-1234,56 €" ∧
    extractAmount "-1234,56 €" ≠ "234,56" := by
  refine ⟨by unfold Digits; decide, by decide,
    ⟨['5', '6'], rfl, by decide, by decide, by unfold Digits; decide⟩,
    by decide, by decide, by decide, by decide⟩

/-- C17, amended: an ungrouped integer part of four or more digits is truncated.
For every string D of at least four ASCII digits, with or without a leading
minus sign, and every optional decimal part F (a comma plus one or two digits),
the field made of D, F, the no-break space U+00A0 and the euro sign extracts to
the last three digits of D followed by F; the leading digits and the sign are
dropped, so "1234,56" and "-1234,56" followed by U+00A0 and the euro sign both
give "234,56". -/
theorem extractAmount_truncates (D F : List Char) (hD : Digits D) (hk : 4 ≤ D.length)
    (hF : DecimalPart F ∨ F = []) :
    extractAmount (String.mk (D ++ (F ++ ['\u00A0', '€']))) =
      String.mk (D.drop (D.length - 3) ++ F) ∧
    extractAmount (String.mk ('-' :: (D ++ (F ++ ['\u00A0', '€'])))) =
      String.mk (D.drop (D.length - 3) ++ F) ∧
    extractAmount "1234,56\u00A0€" = "234,56" ∧ extractAmount "-1234,56\u00A0€" = "234,56" := by
  refine ⟨?_, ?_, by decide, by decide⟩
  · exact extractAmount_of_pair _ _ _ (findFrom_long [] D F (Or.inr rfl) hD hk hF)
  · exact extractAmount_of_pair _ _ _ (findFrom_long ['-'] D F (Or.inl rfl) hD hk hF)

theorem extractAmount_truncates_witness :
    Digits "1234567".data ∧ 4 ≤ "1234567".data.length ∧
    (DecimalPart ",5".data ∨ ",5".data = []) ∧
    (extractAmount (String.mk ("1234567".data ++ (",5".data ++ ['\u00A0', '€']))) =
      String.mk ("1234567".data.drop ("1234567".data.length - 3) ++ ",5".data) ∧
    extractAmount (String.mk ('-' :: ("1234567".data ++ (",5".data ++ ['\u00A0', '€'])))) =
      String.mk ("1234567".data.drop ("1234567".data.length - 3) ++ ",5".data) ∧
    extractAmount "1234,56\u00A0€" = "234,56" ∧ extractAmount "-1234,56\u00A0€" = "234,56") :=
  have hD : Digits "1234567".data := by unfold Digits; decide
  have hF : DecimalPart ",5".data ∨ ",5".data = [] :=
    Or.inl ⟨['5'], rfl, by decide, by decide, by unfold Digits; decide⟩
  ⟨hD, by decide, hF, extractAmount_truncates "1234567".data ",5".data hD (by decide) hF⟩

/-- C18: keepColumns depends only on the set of positions in the selection.
Two selections with the same members give the same output; a selection with
duplicates gives the same output as the selection with the duplicates removed,
so a repeated position (as parsed from "2,2") yields its field once; and the
number of output fields is the number of distinct positions of the selection
that lie inside the record. -/
theorem keepColumns_set_of_positions (record : List String) (selection : List Int) :
    (∀ other : List Int, (∀ p, p ∈ selection ↔ p ∈ other) →
      keepColumns record selection = keepColumns record other) ∧
    keepColumns record selection = keepColumns record selection.dedup ∧
    (keepColumns record selection).length =
      (selection.dedup.filter fun p => decide (0 ≤ p ∧ p < (record.length : Int))).length ∧
    parseColumnsToKeep "2,2" = (some [1, 1], none) ∧
    keepColumns ["a", "b", "c"] [1, 1] = ["b"] := by
  refine ⟨?_, ?_, length_keepColumns record selection, by decide, by decide⟩
  · intro other h
    exact keepColumns_congr record selection other (fun i _ => h i)
  · exact keepColumns_congr record selection _ (fun i _ => List.mem_dedup.symm)

theorem keepColumns_set_of_positions_witness :
    (∀ p, p ∈ ([1, 4, 1] : List Int) ↔ p ∈ ([4, 1] : List Int)) ∧
    keepColumns ["A", "1", "B", "2", "3"] [1, 4, 1] = keepColumns ["A", "1", "B", "2", "3"] [4, 1] :=
  have h : ∀ p, p ∈ ([1, 4, 1] : List Int) ↔ p ∈ ([4, 1] : List Int) := by
    intro p; simp; tauto
  ⟨h, (keepColumns_set_of_positions ["A", "1", "B", "2", "3"] [1, 4, 1]).1 [4, 1] h⟩

end DkbReport
